import Mathlib

/-!
Shallow embedding of the `pool` Go package (file `expiring.go`): a
reference-counted expiring pool `Expiring[T]` keyed by strings, backed by a
`container/heap` priority queue ordered by item dead time.

Modelling conventions:
* `time.Time` is modelled as `Nat` (a point on a discrete timeline);
  `t.Before(u)` is `t < u`.  `nowFunc` is injected: every operation that reads
  the clock takes an explicit `now : Nat` argument, sampled once per call,
  exactly as the Go code calls `nowFunc()` once per pass.
* The Go map `m map[string]*item[T]` is an association list `List (Item V)`
  keyed by `Item.key`; the heap `pq` is a `List (Item V)` in array order.
  In Go the map and the heap share `*item` pointers and the `index` field of
  an item always equals its position in `pq` (or `-1` when absent) — the
  `container/heap` interface maintains this in `Swap`/`Push`/`Pop`.  We
  realise the `index` field as the position of the item's key in `pq`:
  `remove` looks the key up instead of reading a stored index.
* Errors: constructor/destructor callbacks fail with values of a type `E`
  (`nil` = `none`).  The pool returns `PoolErr E`: `raw e` is an error value
  propagated verbatim, `close k e` is `fmt.Errorf("close %s: %w", k, e)`
  produced by `Clear`.  A `nil` destructor is the function `fun _ => none`,
  observationally equal to skipping the call.
* Each operation also returns the list of items destroyed (handed to the
  destructor) and, for `Get`, the keys the constructor was invoked on, so
  that claims about callback invocations can be stated.
-/

namespace Pool

/-- The `item[T]` record of `expiring.go` (the `index` field is realised as
the position of the key in the heap list, see the module comment). -/
structure Item (V : Type) where
  key : String
  value : V
  deadtime : Nat
  refCounter : Int
  deriving DecidableEq, Repr

/-- Errors surfaced by pool operations: `raw e` is an error value returned
verbatim, `close k e` is the `fmt.Errorf("close %s: %w", k, e)` wrapping done
by `Clear`. -/
inductive PoolErr (E : Type) where
  | raw : E → PoolErr E
  | close : String → E → PoolErr E
  deriving DecidableEq, Repr

/-- Dead time stored at index `i` of the heap list (out-of-range reads default
to `0`; the algorithms below only ever compare in-range indices, mirroring the
in-bounds accesses `pq[i].deadtime` of the Go code). -/
def dtAt {V : Type} (l : List (Item V)) (i : Nat) : Nat :=
  ((l.get? i).map Item.deadtime).getD 0

/-- `Swap(i, j)` of the `container/heap` interface: exchange the elements at
positions `i` and `j` (the Go `Swap` also restamps the `index` fields, which
are positions here and need no restamping). -/
def swapIdx {α : Type} (l : List α) (i j : Nat) : List α :=
  match l.get? i, l.get? j with
  | some x, some y => (l.set i y).set j x
  | _, _ => l

/-- `container/heap.up`: sift the element at index `j` towards the root while
it is strictly smaller than its parent. -/
def siftUp {V : Type} (l : List (Item V)) (j : Nat) : List (Item V) :=
  let i := (j - 1) / 2
  if h : ¬(i = j) ∧ dtAt l j < dtAt l i then
    siftUp (swapIdx l i j) i
  else
    l
termination_by j
decreasing_by omega

/-- Index of the smaller child of `i` among indices `< n`
(the `j` computation inside `container/heap.down`). -/
def minChild {V : Type} (l : List (Item V)) (i n : Nat) : Nat :=
  if 2 * i + 2 < n ∧ dtAt l (2 * i + 2) < dtAt l (2 * i + 1) then
    2 * i + 2
  else
    2 * i + 1

/-- `container/heap.down`: sift the element at index `i` down within the
prefix of length `n`, swapping with the smaller child while that child is
strictly smaller.  Returns the final list together with the final index
(Go's `down` returns `i > i0`; callers compare the returned index with the
start index). -/
def siftDown {V : Type} (l : List (Item V)) (i n : Nat) : List (Item V) × Nat :=
  if h1 : 2 * i + 1 < n then
    if dtAt l (minChild l i n) < dtAt l i then
      siftDown (swapIdx l i (minChild l i n)) (minChild l i n) n
    else
      (l, i)
  else
    (l, i)
termination_by n - i
decreasing_by
  have hx : i < minChild l i n ∧ minChild l i n < n := by
    unfold minChild
    split <;> omega
  omega

/-- `container/heap.Push`: append the element and sift it up
(`pq.Push` appends and stamps `index := n`; `up` runs from that index). -/
def heapPush {V : Type} (l : List (Item V)) (x : Item V) : List (Item V) :=
  siftUp (l ++ [x]) l.length

/-- `container/heap.Pop`: swap the root with the last element, sift the new
root down within the shortened prefix, and split off the last element
(`pq.Pop` of the interface removes and returns the last slot).  The Go code
never pops an empty heap; the empty case is totalised to `(none, [])`. -/
def heapPop {V : Type} (l : List (Item V)) : Option (Item V) × List (Item V) :=
  if l.isEmpty then
    (none, l)
  else
    ((siftDown (swapIdx l 0 (l.length - 1)) 0 (l.length - 1)).1.get? (l.length - 1),
     ((siftDown (swapIdx l 0 (l.length - 1)) 0 (l.length - 1)).1).take (l.length - 1))

/-- The heap-repair step of `container/heap.Remove(i)`: move the element at
`i` to the last slot with `Swap`, then run `down` and, when `down` did not
move the element, `up`. -/
def heapRemoveFix {V : Type} (l : List (Item V)) (i : Nat) : List (Item V) :=
  if i = l.length - 1 then l
  else
    if i < (siftDown (swapIdx l i (l.length - 1)) i (l.length - 1)).2 then
      (siftDown (swapIdx l i (l.length - 1)) i (l.length - 1)).1
    else
      siftUp ((siftDown (swapIdx l i (l.length - 1)) i (l.length - 1)).1) i

/-- `container/heap.Remove(i)`: repair with `heapRemoveFix`, then remove the
last slot (the interface `Pop` removes and returns the last slot). -/
def heapRemove {V : Type} (l : List (Item V)) (i : Nat) :
    Option (Item V) × List (Item V) :=
  if l.isEmpty then
    (none, l)
  else
    ((heapRemoveFix l i).get? (l.length - 1),
     (heapRemoveFix l i).take (l.length - 1))

/-- `priorityQueue.remove`: remove the item from the heap when its `index` is
non-negative, i.e. when its key occurs in the heap list. -/
def pqRemove {V : Type} (l : List (Item V)) (k : String) : List (Item V) :=
  match l.findIdx? (fun it => it.key == k) with
  | some i => (heapRemove l i).2
  | none => l

/-- Go map lookup `p.m[key]`. -/
def mapLookup {V : Type} (m : List (Item V)) (k : String) : Option (Item V) :=
  m.find? (fun it => it.key == k)

/-- Go map deletion `delete(p.m, key)`. -/
def mapDelete {V : Type} (m : List (Item V)) (k : String) : List (Item V) :=
  m.filter (fun it => it.key != k)

/-- In-place mutation of the item stored under `k` (Go mutates through the
shared `*item` pointer; here the entry is replaced). -/
def mapSet {V : Type} (m : List (Item V)) (k : String) (x : Item V) :
    List (Item V) :=
  m.map (fun it => if it.key == k then x else it)

/-- The mutable state of an `Expiring[V]` pool: the key-to-item map and the
priority queue. -/
structure PoolState (V : Type) where
  m : List (Item V)
  pq : List (Item V)
  deriving DecidableEq, Repr

/-- The empty pool produced by `NewExpiring`. -/
def initState (V : Type) : PoolState V := ⟨[], []⟩

/-- Result of one `priorityQueue.prune` pass: final heap and map, the items
destroyed (in destruction order), and the destructor error, if any. -/
structure PruneRes (V E : Type) where
  pq : List (Item V)
  m : List (Item V)
  destroyed : List (Item V)
  err : Option E
  deriving DecidableEq, Repr

theorem swapIdx_length {α : Type} (l : List α) (i j : Nat) :
    (swapIdx l i j).length = l.length := by
  unfold swapIdx
  split
  · simp
  · rfl

theorem siftDown_length {V : Type} (l : List (Item V)) (i n : Nat) :
    ((siftDown l i n).1).length = l.length := by
  rw [siftDown]
  split
  · split
    · rw [siftDown_length]
      exact swapIdx_length l i (minChild l i n)
    · rfl
  · rfl
termination_by n - i
decreasing_by
  have hx : i < minChild l i n ∧ minChild l i n < n := by
    unfold minChild
    split <;> omega
  omega

theorem heapPop_length {V : Type} (l : List (Item V)) (h : l ≠ []) :
    ((heapPop l).2).length = l.length - 1 := by
  unfold heapPop
  rw [if_neg (by simpa using h)]
  simp [siftDown_length, swapIdx_length]

/-- `priorityQueue.prune`: with `now` sampled once by the caller, repeatedly
inspect the heap root; while it exists and its dead time is strictly before
`now`, pop it, delete its key from the map, and invoke the destructor,
stopping early (error returned unwrapped) when the destructor fails.
The popped item is the root that was inspected (`heapPop` returns the root;
`getD root` is only a totaliser). -/
def prune {V E : Type} (destruct : V → Option E) (now : Nat)
    (pq m : List (Item V)) : PruneRes V E :=
  match hpq : pq with
  | [] => ⟨pq, m, [], none⟩
  | root :: _ =>
    if root.deadtime < now then
      let pq1 := (heapPop pq).2
      let it := ((heapPop pq).1).getD root
      let m1 := mapDelete m it.key
      match destruct it.value with
      | some e => ⟨pq1, m1, [it], some e⟩
      | none =>
        let r := prune destruct now pq1 m1
        ⟨r.pq, r.m, it :: r.destroyed, r.err⟩
    else
      ⟨pq, m, [], none⟩
termination_by pq.length
decreasing_by
  subst hpq
  rw [heapPop_length _ (by simp)]
  simp

/-- Result of a public pool operation: the new state, the destroyed items,
and the returned error (`none` = `nil`). -/
structure OpOut (V E : Type) where
  s : PoolState V
  destroyed : List (Item V)
  err : Option (PoolErr E)
  deriving DecidableEq, Repr

/-- `Expiring.Prune`: run a prune pass over the pool state; a destructor
error is returned exactly as `prune` produced it (unwrapped). -/
def Prune {V E : Type} (destruct : V → Option E) (now : Nat)
    (s : PoolState V) : OpOut V E :=
  let r := prune destruct now s.pq s.m
  ⟨⟨r.m, r.pq⟩, r.destroyed, r.err.map PoolErr.raw⟩

/-- Result of `Expiring.Get`: the returned value or error, the new state,
the keys the constructor was invoked on, and the destroyed items. -/
structure GetRes (V E : Type) where
  ret : Except (PoolErr E) V
  s : PoolState V
  constructed : List String
  destroyed : List (Item V)
  deriving Repr

/-- `Expiring.Get`: on a miss, prune, then construct (errors returned
verbatim) and insert a fresh item with `refCounter = 1`; on a hit, increment
the reference counter, remove the item from the heap, then prune. -/
def Get {V E : Type} (ctor : String → Except E V) (destruct : V → Option E)
    (now : Nat) (s : PoolState V) (key : String) : GetRes V E :=
  match mapLookup s.m key with
  | none =>
    let r : PruneRes V E := prune destruct now s.pq s.m
    match r.err with
    | some e => ⟨.error (.raw e), ⟨r.m, r.pq⟩, [], r.destroyed⟩
    | none =>
      match ctor key with
      | .error e => ⟨.error (.raw e), ⟨r.m, r.pq⟩, [key], r.destroyed⟩
      | .ok v =>
        ⟨.ok v, ⟨r.m ++ [⟨key, v, 0, 1⟩], r.pq⟩, [key], r.destroyed⟩
  | some i =>
    let i1 : Item V := { i with refCounter := i.refCounter + 1 }
    let m1 := mapSet s.m key i1
    let pq1 := pqRemove s.pq key
    let r : PruneRes V E := prune destruct now pq1 m1
    match r.err with
    | some e => ⟨.error (.raw e), ⟨r.m, r.pq⟩, [], r.destroyed⟩
    | none => ⟨.ok i.value, ⟨r.m, r.pq⟩, [], r.destroyed⟩

/-- `Expiring.Release`: no-op for an unknown key; otherwise decrement the
reference counter and, exactly when it reaches `0`, stamp the dead time
`now + ttl` and push the item onto the heap.  `Release` returns no error and
never invokes a callback. -/
def Release {V : Type} (now ttl : Nat) (s : PoolState V) (key : String) :
    PoolState V :=
  match mapLookup s.m key with
  | none => s
  | some i =>
    let i1 : Item V := { i with refCounter := i.refCounter - 1 }
    if i1.refCounter = 0 then
      let i2 : Item V := { i1 with deadtime := now + ttl }
      ⟨mapSet s.m key i2, heapPush s.pq i2⟩
    else
      ⟨mapSet s.m key i1, s.pq⟩

/-- The heap-draining loop at the top of `Expiring.Clear`
(`for p.pq.Len() > 0 { heap.Pop(p.pq) }`). -/
def drainLoop {V : Type} (pq : List (Item V)) : List (Item V) :=
  match hpq : pq with
  | [] => pq
  | _ :: _ => drainLoop (heapPop pq).2
termination_by pq.length
decreasing_by
  subst hpq
  rw [heapPop_length _ (by simp)]
  simp

/-- The map-clearing loop of `Expiring.Clear`: iterate the entries (Go map
iteration order is unspecified; the model iterates in list order), deleting
each and invoking the destructor, stopping at the first destructor error,
which is wrapped as `close key err`.  Returns the remaining entries, the
destroyed items and the error. -/
def clearLoop {V E : Type} (destruct : V → Option E) (m : List (Item V)) :
    List (Item V) × List (Item V) × Option (PoolErr E) :=
  match m with
  | [] => ([], [], none)
  | it :: rest =>
    match destruct it.value with
    | some e => (rest, [it], some (.close it.key e))
    | none =>
      let r := clearLoop destruct rest
      (r.1, it :: r.2.1, r.2.2)

/-- `Expiring.Clear`: drain the heap completely, then destroy every mapped
entry regardless of reference count or dead time. -/
def Clear {V E : Type} (destruct : V → Option E) (s : PoolState V) :
    OpOut V E :=
  let pq1 := drainLoop s.pq
  let r := clearLoop destruct s.m
  ⟨⟨r.1, pq1⟩, r.2.1, r.2.2⟩

/-- One caller action on the pool: `Get` or `Release`, each with the time the
injected clock returns during that call. -/
inductive Op where
  | get (key : String) (now : Nat)
  | rel (key : String) (now ttl : Nat)
  deriving DecidableEq, Repr

/-- Apply one action to a pool state (return values and logs discarded). -/
def step {V E : Type} (ctor : String → Except E V) (destruct : V → Option E)
    (s : PoolState V) : Op → PoolState V
  | .get k now => (Get ctor destruct now s k).s
  | .rel k now ttl => Release now ttl s k

/-- Run a sequence of `Get`/`Release` actions from the empty pool. -/
def runOps {V E : Type} (ctor : String → Except E V) (destruct : V → Option E)
    (ops : List Op) : PoolState V :=
  ops.foldl (step ctor destruct) (initState V)

/-- The binary min-heap ordering of `priorityQueue` restricted to the first
`n` slots: every child at index `< n` is at least its parent. -/
def IsHeapTo {V : Type} (l : List (Item V)) (n : Nat) : Prop :=
  ∀ c : Nat, c < n → 0 < c → dtAt l ((c - 1) / 2) ≤ dtAt l c

/-- The binary min-heap ordering of the whole heap list. -/
def IsHeap {V : Type} (l : List (Item V)) : Prop :=
  IsHeapTo l l.length

instance {V : Type} (l : List (Item V)) (n : Nat) :
    Decidable (IsHeapTo l n) := by
  unfold IsHeapTo
  exact Nat.decidableBallLT n _

instance {V : Type} (l : List (Item V)) : Decidable (IsHeap l) := by
  unfold IsHeap
  infer_instance

/-! ### Permutation and pointwise lemmas for the heap primitives -/

theorem set_cons_perm {α : Type} :
    ∀ (t : List α) (m : Nat) (a y : α), t.get? m = some y →
      (y :: t.set m a).Perm (a :: t)
  | [], m, _, _, h => by simp at h
  | b :: t2, 0, a, y, h => by
    have hb : y = b := by
      simp only [List.get?] at h
      exact (Option.some.inj h).symm
    rw [hb]
    exact List.Perm.swap a b t2
  | b :: t2, m + 1, a, y, h => by
    have ih := set_cons_perm t2 m a y h
    exact (List.Perm.swap b y (t2.set m a)).trans
      ((ih.cons b).trans (List.Perm.swap a b t2))

theorem swapIdx_cons_succ {α : Type} (a : α) (t : List α) (m k : Nat) :
    swapIdx (a :: t) (m + 1) (k + 1) = a :: swapIdx t m k := by
  unfold swapIdx
  simp only [List.get?]
  cases hx : t.get? m <;> cases hy : t.get? k <;> rfl

theorem swapIdx_perm {α : Type} :
    ∀ (l : List α) (i j : Nat), (swapIdx l i j).Perm l
  | [], i, j => by
    unfold swapIdx
    simp only [List.get?]
    exact List.Perm.refl _
  | a :: t, 0, 0 => by
    unfold swapIdx
    simp only [List.get?, List.set]
    exact List.Perm.refl _
  | a :: t, 0, k + 1 => by
    unfold swapIdx
    simp only [List.get?]
    cases hy : t.get? k with
    | none => exact List.Perm.refl _
    | some y =>
      simp only [List.set]
      exact set_cons_perm t k a y hy
  | a :: t, m + 1, 0 => by
    unfold swapIdx
    simp only [List.get?]
    cases hx : t.get? m with
    | none => exact List.Perm.refl _
    | some x =>
      simp only [List.set]
      exact set_cons_perm t m a x hx
  | a :: t, m + 1, k + 1 => by
    rw [swapIdx_cons_succ]
    exact (swapIdx_perm t m k).cons a

theorem swapIdx_get?_other {α : Type} (l : List α) (i j k : Nat)
    (hki : k ≠ i) (hkj : k ≠ j) : (swapIdx l i j).get? k = l.get? k := by
  unfold swapIdx
  split
  · rw [List.get?_set_ne _ _ (by omega), List.get?_set_ne _ _ (by omega)]
  · rfl

theorem swapIdx_get? {α : Type} (l : List α) (i j k : Nat)
    (hi : i < l.length) (hj : j < l.length) :
    (swapIdx l i j).get? k =
      if k = j then l.get? i else if k = i then l.get? j else l.get? k := by
  have hx : l.get? i = some (l.get ⟨i, hi⟩) := List.get?_eq_get hi
  have hy : l.get? j = some (l.get ⟨j, hj⟩) := List.get?_eq_get hj
  have hswap : swapIdx l i j = (l.set i (l.get ⟨j, hj⟩)).set j (l.get ⟨i, hi⟩) := by
    unfold swapIdx
    rw [hx, hy]
  rw [hswap]
  by_cases hkj : k = j
  · subst hkj
    rw [if_pos rfl, List.get?_set_eq_of_lt _ (by simpa using hj), hx]
  · rw [if_neg hkj, List.get?_set_ne _ _ (Ne.symm hkj)]
    by_cases hki : k = i
    · subst hki
      rw [if_pos rfl, List.get?_set_eq_of_lt _ hi, hy]
    · rw [if_neg hki, List.get?_set_ne _ _ (Ne.symm hki)]

theorem siftUp_perm {V : Type} (l : List (Item V)) (j : Nat) :
    (siftUp l j).Perm l := by
  rw [siftUp]
  split
  · exact (siftUp_perm _ _).trans (swapIdx_perm l _ j)
  · exact List.Perm.refl l
termination_by j
decreasing_by omega

theorem siftUp_get?_gt {V : Type} (l : List (Item V)) (j k : Nat)
    (hk : j < k) : (siftUp l j).get? k = l.get? k := by
  rw [siftUp]
  split
  · rw [siftUp_get?_gt _ _ _ (by omega)]
    exact swapIdx_get?_other l _ j k (by omega) (by omega)
  · rfl
termination_by j
decreasing_by omega

theorem siftDown_perm {V : Type} (l : List (Item V)) (i n : Nat) :
    ((siftDown l i n).1).Perm l := by
  rw [siftDown]
  split
  · split
    · exact (siftDown_perm _ _ _).trans (swapIdx_perm l i (minChild l i n))
    · exact List.Perm.refl l
  · exact List.Perm.refl l
termination_by n - i
decreasing_by
  have hx : i < minChild l i n ∧ minChild l i n < n := by
    unfold minChild
    split <;> omega
  omega

theorem siftDown_get?_ge {V : Type} (l : List (Item V)) (i n k : Nat)
    (hk : n ≤ k) : ((siftDown l i n).1).get? k = l.get? k := by
  rw [siftDown]
  split
  · split
    · rename_i h1 h2
      have hx : i < minChild l i n ∧ minChild l i n < n := by
        unfold minChild
        split <;> omega
      rw [siftDown_get?_ge _ _ _ _ hk]
      exact swapIdx_get?_other l i _ k (by omega) (by omega)
    · rfl
  · rfl
termination_by n - i
decreasing_by
  have hx : i < minChild l i n ∧ minChild l i n < n := by
    unfold minChild
    split <;> omega
  omega

theorem heapPush_perm {V : Type} (l : List (Item V)) (x : Item V) :
    (heapPush l x).Perm (x :: l) := by
  unfold heapPush
  exact (siftUp_perm _ _).trans (List.perm_append_singleton x l)

/-- Splitting off the last slot: a list of length `n + 1` whose last entry is
`x` is a permutation of `x` consed onto its first `n` entries. -/
theorem take_last_perm {α : Type} (l : List α) (n : Nat) (x : α)
    (hlen : l.length = n + 1) (hx : l.get? n = some x) :
    (x :: l.take n).Perm l := by
  have hn : n < l.length := by omega
  have hget : l.get ⟨n, hn⟩ = x := by
    rw [List.get?_eq_get hn] at hx
    exact Option.some.inj hx
  have hdrop : l.drop n = [x] := by
    have h1 : l.drop n = l.get ⟨n, hn⟩ :: l.drop (n + 1) :=
      List.drop_eq_get_cons hn
    have h2 : l.drop (n + 1) = [] := List.drop_eq_nil_of_le (by omega)
    rw [h1, h2, hget]
  have hsplit : l.take n ++ [x] = l := by
    rw [← hdrop]
    exact List.take_append_drop n l
  have hp : (x :: l.take n).Perm (l.take n ++ [x]) :=
    (List.perm_append_singleton x _).symm
  rw [hsplit] at hp
  exact hp

theorem heapPop_fst {V : Type} (l : List (Item V)) (h : l ≠ []) :
    (heapPop l).1 = l.get? 0 := by
  unfold heapPop
  rw [if_neg (by simpa using h)]
  have hlen : 0 < l.length := List.length_pos.2 h
  show ((siftDown (swapIdx l 0 (l.length - 1)) 0 (l.length - 1)).1).get?
      (l.length - 1) = l.get? 0
  rw [siftDown_get?_ge _ _ _ _ (le_refl _)]
  rw [swapIdx_get? l 0 (l.length - 1) (l.length - 1) (by omega) (by omega)]
  rw [if_pos rfl]

theorem heapPop_perm {V : Type} (l : List (Item V)) (x : Item V)
    (h : l ≠ []) (hx : (heapPop l).1 = some x) :
    (x :: (heapPop l).2).Perm l := by
  have hfst := hx
  unfold heapPop at hfst ⊢
  rw [if_neg (by simpa using h)] at hfst ⊢
  have hlen : 0 < l.length := List.length_pos.2 h
  have hperm : ((siftDown (swapIdx l 0 (l.length - 1)) 0 (l.length - 1)).1).Perm l :=
    (siftDown_perm _ _ _).trans (swapIdx_perm l 0 (l.length - 1))
  have hlen2 : ((siftDown (swapIdx l 0 (l.length - 1)) 0 (l.length - 1)).1).length
      = l.length := by
    rw [siftDown_length, swapIdx_length]
  exact (take_last_perm _ (l.length - 1) x (by omega) hfst).trans hperm

theorem heapRemoveFix_perm {V : Type} (l : List (Item V)) (i : Nat) :
    (heapRemoveFix l i).Perm l := by
  unfold heapRemoveFix
  split
  · exact List.Perm.refl l
  · have hbase : ((siftDown (swapIdx l i (l.length - 1)) i (l.length - 1)).1).Perm l :=
      (siftDown_perm _ _ _).trans (swapIdx_perm l i (l.length - 1))
    split
    · exact hbase
    · exact (siftUp_perm _ _).trans hbase

theorem heapRemoveFix_get?_last {V : Type} (l : List (Item V)) (i : Nat)
    (hi : i < l.length) :
    (heapRemoveFix l i).get? (l.length - 1) = l.get? i := by
  unfold heapRemoveFix
  split
  · rename_i hin
    rw [← hin]
  · rename_i hin
    have hkey : ((siftDown (swapIdx l i (l.length - 1)) i (l.length - 1)).1).get?
        (l.length - 1) = l.get? i := by
      rw [siftDown_get?_ge _ _ _ _ (le_refl _)]
      rw [swapIdx_get? l i (l.length - 1) (l.length - 1) hi (by omega)]
      rw [if_pos rfl]
    split
    · exact hkey
    · rw [siftUp_get?_gt _ _ _ (by omega)]
      exact hkey

theorem heapRemove_perm {V : Type} (l : List (Item V)) (i : Nat) (x : Item V)
    (hi : i < l.length) (hx : l.get? i = some x) :
    (x :: (heapRemove l i).2).Perm l := by
  unfold heapRemove
  rw [if_neg (by simp only [List.isEmpty_iff]; exact List.ne_nil_of_length_pos (by omega))]
  have hperm : (heapRemoveFix l i).Perm l := heapRemoveFix_perm l i
  have hlen2 : (heapRemoveFix l i).length = l.length := hperm.length_eq
  have hfst : (heapRemoveFix l i).get? (l.length - 1) = some x := by
    rw [heapRemoveFix_get?_last l i hi, hx]
  exact (take_last_perm _ (l.length - 1) x (by omega) hfst).trans hperm

theorem findIdx?_some_spec {α : Type} :
    ∀ (l : List α) (p : α → Bool) (s i : Nat), l.findIdx? p s = some i →
      s ≤ i ∧ ∃ h : i - s < l.length, p (l.get ⟨i - s, h⟩) = true
  | [], p, s, i, h => by simp [List.findIdx?_nil] at h
  | x :: xs, p, s, i, h => by
    rw [List.findIdx?_cons] at h
    split at h
    · cases h
      exact ⟨le_refl _, by simpa using ‹p x = true›⟩
    · obtain ⟨hle, hlt, hp⟩ := findIdx?_some_spec xs p (s + 1) i h
      have hb : i - s < (x :: xs).length := by
        simp only [List.length_cons]
        omega
      refine ⟨by omega, hb, ?_⟩
      have harith : i - s = (i - (s + 1)) + 1 := by omega
      have h1 : (x :: xs).get? (i - s) = xs.get? (i - (s + 1)) := by
        rw [harith]
        rfl
      have h2 : (x :: xs).get? (i - s) = some ((x :: xs).get ⟨i - s, hb⟩) :=
        List.get?_eq_get hb
      rw [h1, List.get?_eq_get hlt] at h2
      have h4 := Option.some.inj h2
      rw [← h4]
      exact hp

/-! ### Heap-ordering lemmas: `down` re-establishes the min-heap shape at the
root, so `Pop` yields the minimum and preserves the heap invariant. -/

theorem dtAt_eq_of_get? {V : Type} (l : List (Item V)) (i : Nat) (x : Item V)
    (h : l.get? i = some x) : dtAt l i = x.deadtime := by
  unfold dtAt
  rw [h]
  rfl

theorem dtAt_swapIdx {V : Type} (l : List (Item V)) (i j k : Nat)
    (hi : i < l.length) (hj : j < l.length) :
    dtAt (swapIdx l i j) k =
      if k = j then dtAt l i else if k = i then dtAt l j else dtAt l k := by
  unfold dtAt
  rw [swapIdx_get? l i j k hi hj]
  by_cases hkj : k = j
  · rw [if_pos hkj, if_pos hkj]
  · rw [if_neg hkj, if_neg hkj]
    by_cases hki : k = i
    · rw [if_pos hki, if_pos hki]
    · rw [if_neg hki, if_neg hki]

theorem dtAt_take {V : Type} (l : List (Item V)) (n k : Nat) (hk : k < n) :
    dtAt (l.take n) k = dtAt l k := by
  unfold dtAt
  rw [List.get?_take hk]

/-- The heap ordering restricted to children `< n` whose parent is `≥ start`
(the region `down` guarantees). -/
def HeapFromTo {V : Type} (l : List (Item V)) (start n : Nat) : Prop :=
  ∀ c : Nat, 0 < c → c < n → start ≤ (c - 1) / 2 →
    dtAt l ((c - 1) / 2) ≤ dtAt l c

theorem isHeapTo_iff_heapFromTo {V : Type} (l : List (Item V)) (n : Nat) :
    IsHeapTo l n ↔ HeapFromTo l 0 n := by
  constructor
  · intro h c hc hcn _
    exact h c hcn hc
  · intro h c hcn hc
    exact h c hc hcn (Nat.zero_le _)

theorem heapTo_root_min {V : Type} (l : List (Item V)) (n : Nat)
    (h : IsHeapTo l n) : ∀ c : Nat, c < n → dtAt l 0 ≤ dtAt l c := by
  intro c
  induction c using Nat.strongRecOn with
  | ind c ih =>
    intro hcn
    by_cases hc : c = 0
    · subst hc
      exact le_refl _
    · have h1 : dtAt l ((c - 1) / 2) ≤ dtAt l c := h c hcn (by omega)
      have h2 : dtAt l 0 ≤ dtAt l ((c - 1) / 2) :=
        ih ((c - 1) / 2) (by omega) (by omega)
      exact le_trans h2 h1

/-- Smaller-child selection: `minChild` is a child of `i` inside the bound
and is minimal among the children of `i` inside the bound. -/
theorem minChild_spec {V : Type} (l : List (Item V)) (i n : Nat)
    (h : 2 * i + 1 < n) :
    i < minChild l i n ∧ minChild l i n < n ∧ (minChild l i n - 1) / 2 = i ∧
      ∀ c : Nat, 0 < c → c < n → (c - 1) / 2 = i →
        dtAt l (minChild l i n) ≤ dtAt l c := by
  unfold minChild
  split
  · rename_i hcond
    refine ⟨by omega, by omega, by omega, ?_⟩
    intro c hc hcn hcp
    have : c = 2 * i + 1 ∨ c = 2 * i + 2 := by omega
    rcases this with rfl | rfl
    · exact le_of_lt hcond.2
    · exact le_refl _
  · rename_i hcond
    refine ⟨by omega, by omega, by omega, ?_⟩
    intro c hc hcn hcp
    have : c = 2 * i + 1 ∨ c = 2 * i + 2 := by omega
    rcases this with rfl | rfl
    · exact le_refl _
    · have := not_and.1 hcond hcn
      omega

/-- Loop invariant of `container/heap.down` (structure follows the standard
sift-down argument): the region is heap-ordered except possibly on the edges
out of `hole`, and anything that previously moved up into the path bounds the
children of `hole` from below. -/
structure SiftInv {V : Type} (l : List (Item V)) (n start hole : Nat) : Prop where
  lower : start ≤ hole
  bounded : hole < n
  heap : ∀ c : Nat, 0 < c → c < n → start ≤ (c - 1) / 2 → (c - 1) / 2 ≠ hole →
    dtAt l ((c - 1) / 2) ≤ dtAt l c
  upper : start < hole → ∀ c : Nat, 0 < c → c < n → (c - 1) / 2 = hole →
    dtAt l ((hole - 1) / 2) ≤ dtAt l c

theorem SiftInv.heapFromTo_of_dominates {V : Type} {l : List (Item V)}
    {n start hole : Nat} (inv : SiftInv l n start hole)
    (dom : ∀ c : Nat, 0 < c → c < n → (c - 1) / 2 = hole →
      dtAt l hole ≤ dtAt l c) : HeapFromTo l start n := by
  intro c hc hcn hcs
  by_cases hcp : (c - 1) / 2 = hole
  · rw [hcp]
    exact dom c hc hcn hcp
  · exact inv.heap c hc hcn hcs hcp

theorem SiftInv.swap {V : Type} {l : List (Item V)} {n start hole : Nat}
    (inv : SiftInv l n start hole) (hn : n ≤ l.length)
    (h1 : 2 * hole + 1 < n)
    (hlt : dtAt l (minChild l hole n) < dtAt l hole) :
    SiftInv (swapIdx l hole (minChild l hole n)) n start (minChild l hole n) := by
  obtain ⟨hja, hjb, hjc, hjmin⟩ := minChild_spec l hole n h1
  have hda : ∀ k : Nat, dtAt (swapIdx l hole (minChild l hole n)) k =
      if k = minChild l hole n then dtAt l hole
      else if k = hole then dtAt l (minChild l hole n) else dtAt l k :=
    fun k => dtAt_swapIdx l hole (minChild l hole n) k (by omega) (by omega)
  have hj' : dtAt (swapIdx l hole (minChild l hole n)) (minChild l hole n)
      = dtAt l hole := by
    rw [hda, if_pos rfl]
  have hh' : dtAt (swapIdx l hole (minChild l hole n)) hole
      = dtAt l (minChild l hole n) := by
    rw [hda, if_neg (by omega), if_pos rfl]
  have ho' : ∀ k : Nat, k ≠ minChild l hole n → k ≠ hole →
      dtAt (swapIdx l hole (minChild l hole n)) k = dtAt l k := by
    intro k hk1 hk2
    rw [hda, if_neg hk1, if_neg hk2]
  have hlow := inv.lower
  refine ⟨by omega, hjb, ?_, ?_⟩
  · intro c hc hcn hcs hcp
    by_cases hcj : c = minChild l hole n
    · have hph : (c - 1) / 2 = hole := by rw [hcj]; exact hjc
      have e1 : dtAt (swapIdx l hole (minChild l hole n)) c = dtAt l hole := by
        rw [hcj, hj']
      have e2 : dtAt (swapIdx l hole (minChild l hole n)) ((c - 1) / 2)
          = dtAt l (minChild l hole n) := by
        rw [hph, hh']
      rw [e1, e2]
      exact le_of_lt hlt
    · by_cases hch : c = hole
      · have e1 : dtAt (swapIdx l hole (minChild l hole n)) c
            = dtAt l (minChild l hole n) := by
          rw [hch, hh']
        have e2 : dtAt (swapIdx l hole (minChild l hole n)) ((c - 1) / 2)
            = dtAt l ((c - 1) / 2) := by
          refine ho' _ hcp ?_
          omega
        rw [e1, e2, hch]
        rcases lt_or_eq_of_le inv.lower with hsl | hsl
        · exact inv.upper hsl (minChild l hole n) (by omega) hjb hjc
        · exact absurd hcs (by omega)
      · have e1 : dtAt (swapIdx l hole (minChild l hole n)) c = dtAt l c :=
          ho' c hcj hch
        by_cases hph : (c - 1) / 2 = hole
        · have e2 : dtAt (swapIdx l hole (minChild l hole n)) ((c - 1) / 2)
              = dtAt l (minChild l hole n) := by
            rw [hph, hh']
          rw [e1, e2]
          exact hjmin c hc hcn hph
        · have e2 : dtAt (swapIdx l hole (minChild l hole n)) ((c - 1) / 2)
              = dtAt l ((c - 1) / 2) := ho' _ hcp hph
          rw [e1, e2]
          exact inv.heap c hc hcn hcs hph
  · intro hsj c hc hcn hcp
    have hcgt : minChild l hole n < c := by omega
    have e1 : dtAt (swapIdx l hole (minChild l hole n))
        ((minChild l hole n - 1) / 2) = dtAt l (minChild l hole n) := by
      rw [hjc, hh']
    have e2 : dtAt (swapIdx l hole (minChild l hole n)) c = dtAt l c :=
      ho' c (by omega) (by omega)
    rw [e1, e2]
    have hstep := inv.heap c hc hcn (by omega) (by omega)
    rw [hcp] at hstep
    exact hstep

theorem siftDown_heapFromTo {V : Type} (l : List (Item V)) (start i n : Nat)
    (hn : n ≤ l.length) (inv : SiftInv l n start i) :
    HeapFromTo ((siftDown l i n).1) start n := by
  rw [siftDown]
  split
  · rename_i h1
    split
    · rename_i hlt
      exact siftDown_heapFromTo _ start _ n
        (by rw [swapIdx_length]; exact hn) (inv.swap hn h1 hlt)
    · rename_i hge
      obtain ⟨hja, hjb, hjc, hjmin⟩ := minChild_spec l i n h1
      apply inv.heapFromTo_of_dominates
      intro c hc hcn hcp
      exact le_trans (Nat.le_of_not_lt hge) (hjmin c hc hcn hcp)
  · rename_i h1
    apply inv.heapFromTo_of_dominates
    intro c hc hcn hcp
    exact absurd hcn (by omega)
termination_by n - i
decreasing_by
  have hx : i < minChild l i n ∧ minChild l i n < n := by
    unfold minChild
    split <;> omega
  omega

/-- Popping a non-trivial heap leaves a heap. -/
theorem heapPop_isHeap {V : Type} (l : List (Item V)) (h : IsHeap l) :
    IsHeap ((heapPop l).2) := by
  by_cases he : l.isEmpty
  · unfold heapPop
    rw [if_pos he]
    exact h
  · unfold heapPop
    rw [if_neg he]
    have hlen : 0 < l.length := by
      cases l with
      | nil => simp at he
      | cons a t => simp
    by_cases hn1 : l.length = 1
    · intro c hcn hc
      have h2 : ((siftDown (swapIdx l 0 (l.length - 1)) 0 (l.length - 1)).1).length
          = l.length := by rw [siftDown_length, swapIdx_length]
      rw [List.length_take] at hcn
      omega
    · have hn : 0 < l.length - 1 := by omega
      have hinv : SiftInv (swapIdx l 0 (l.length - 1)) (l.length - 1) 0 0 := by
        refine ⟨le_refl _, hn, ?_, ?_⟩
        · intro c hc hcn hcs hcp
          rw [dtAt_swapIdx l 0 (l.length - 1) c (by omega) (by omega),
            dtAt_swapIdx l 0 (l.length - 1) ((c - 1) / 2) (by omega) (by omega)]
          rw [if_neg (by omega), if_neg (by omega), if_neg (by omega),
            if_neg (by omega)]
          exact h c (by omega) (by omega)
        · intro hlt
          omega
      have hfrom : HeapFromTo
          ((siftDown (swapIdx l 0 (l.length - 1)) 0 (l.length - 1)).1)
          0 (l.length - 1) :=
        siftDown_heapFromTo _ 0 0 (l.length - 1)
          (by rw [swapIdx_length]; omega) hinv
      have hlen2 : ((siftDown (swapIdx l 0 (l.length - 1)) 0 (l.length - 1)).1).length
          = l.length := by rw [siftDown_length, swapIdx_length]
      intro c hcn hc
      rw [List.length_take] at hcn
      have hc2 : c < l.length - 1 := by omega
      rw [dtAt_take _ _ _ hc2, dtAt_take _ _ _ (by omega)]
      exact hfrom c hc hc2 (Nat.zero_le _)

/-- The popped element of a heap-ordered list is below every element. -/
theorem isHeap_root_min {V : Type} (l : List (Item V)) (root x : Item V)
    (h : IsHeap l) (hr : l.get? 0 = some root) (hx : x ∈ l) :
    root.deadtime ≤ x.deadtime := by
  obtain ⟨⟨c, hc⟩, hcx⟩ := List.mem_iff_get.1 hx
  have h1 : dtAt l c = x.deadtime :=
    dtAt_eq_of_get? l c x (by rw [List.get?_eq_get hc, hcx])
  have h0 : dtAt l 0 = root.deadtime := dtAt_eq_of_get? l 0 root hr
  rw [← h1, ← h0]
  exact heapTo_root_min l l.length h c hc

/-- Removal by key: when some heap item has key `k`, `pqRemove` removes one
item with that key (and the rest are a permutation of the remainder);
otherwise the heap is untouched. -/
theorem pqRemove_spec {V : Type} (l : List (Item V)) (k : String) :
    (pqRemove l k = l ∧ ∀ x ∈ l, x.key ≠ k) ∨
      ∃ x, x ∈ l ∧ x.key = k ∧ (x :: pqRemove l k).Perm l := by
  unfold pqRemove
  cases hfi : l.findIdx? (fun it => it.key == k) with
  | none =>
    left
    refine ⟨rfl, fun x hx => ?_⟩
    have := List.findIdx?_eq_none_iff.1 hfi x hx
    simpa using this
  | some i =>
    right
    obtain ⟨-, hlt, hp⟩ := findIdx?_some_spec l _ 0 i hfi
    simp only [Nat.sub_zero] at hlt hp
    refine ⟨l.get ⟨i, hlt⟩, List.get_mem l i hlt, by simpa using hp, ?_⟩
    exact heapRemove_perm l i _ hlt (List.get?_eq_get hlt)

/-! ### The prune pass -/

theorem heapPop_fst_cons {V : Type} (root : Item V) (rest : List (Item V)) :
    (heapPop (root :: rest)).1 = some root := by
  rw [heapPop_fst _ (by simp)]
  rfl

theorem prune_nil {V E : Type} (destruct : V → Option E) (now : Nat)
    (m : List (Item V)) :
    prune destruct now [] m = ⟨[], m, [], none⟩ := by
  rw [prune]

theorem prune_cons_stop {V E : Type} (destruct : V → Option E) (now : Nat)
    (root : Item V) (rest m : List (Item V)) (h : ¬root.deadtime < now) :
    prune destruct now (root :: rest) m = ⟨root :: rest, m, [], none⟩ := by
  rw [prune]
  rw [if_neg h]

theorem prune_cons_err {V E : Type} (destruct : V → Option E) (now : Nat)
    (root : Item V) (rest m : List (Item V)) (e : E)
    (h : root.deadtime < now) (he : destruct root.value = some e) :
    prune destruct now (root :: rest) m =
      ⟨(heapPop (root :: rest)).2, mapDelete m root.key, [root], some e⟩ := by
  rw [prune]
  simp only [if_pos h, heapPop_fst_cons, Option.getD_some, he]

theorem prune_cons_ok {V E : Type} (destruct : V → Option E) (now : Nat)
    (root : Item V) (rest m : List (Item V))
    (h : root.deadtime < now) (he : destruct root.value = none) :
    prune destruct now (root :: rest) m =
      ⟨(prune destruct now (heapPop (root :: rest)).2 (mapDelete m root.key)).pq,
       (prune destruct now (heapPop (root :: rest)).2 (mapDelete m root.key)).m,
       root ::
         (prune destruct now (heapPop (root :: rest)).2 (mapDelete m root.key)).destroyed,
       (prune destruct now (heapPop (root :: rest)).2 (mapDelete m root.key)).err⟩ := by
  rw [prune]
  simp only [if_pos h, heapPop_fst_cons, Option.getD_some, he]

theorem isHeap_nil {V : Type} : IsHeap ([] : List (Item V)) := by
  intro c hcn hc
  exact absurd hcn (by simp)

/-- The destroyed items followed by the remaining heap are a permutation of
the input heap. -/
theorem prune_perm {V E : Type} (destruct : V → Option E) (now : Nat)
    (pq m : List (Item V)) :
    ((prune destruct now pq m).destroyed ++ (prune destruct now pq m).pq).Perm
      pq := by
  match pq with
  | [] =>
    rw [prune_nil]
    exact List.Perm.refl _
  | root :: rest =>
    by_cases h : root.deadtime < now
    · cases he : destruct root.value with
      | some e =>
        rw [prune_cons_err destruct now root rest m e h he]
        exact heapPop_perm _ root (by simp) (heapPop_fst_cons root rest)
      | none =>
        rw [prune_cons_ok destruct now root rest m h he]
        have ih := prune_perm destruct now (heapPop (root :: rest)).2
          (mapDelete m root.key)
        exact (ih.cons root).trans
          (heapPop_perm _ root (by simp) (heapPop_fst_cons root rest))
    · rw [prune_cons_stop destruct now root rest m h]
      exact List.Perm.refl _
termination_by pq.length
decreasing_by
  rw [heapPop_length _ (by simp)]
  simp

/-- The final map is the input map with the keys of the destroyed items
deleted, in destruction order. -/
theorem prune_m {V E : Type} (destruct : V → Option E) (now : Nat)
    (pq m : List (Item V)) :
    (prune destruct now pq m).m =
      ((prune destruct now pq m).destroyed).foldl
        (fun mm it => mapDelete mm it.key) m := by
  match pq with
  | [] =>
    rw [prune_nil]
    rfl
  | root :: rest =>
    by_cases h : root.deadtime < now
    · cases he : destruct root.value with
      | some e =>
        rw [prune_cons_err destruct now root rest m e h he]
        rfl
      | none =>
        rw [prune_cons_ok destruct now root rest m h he]
        exact prune_m destruct now (heapPop (root :: rest)).2
          (mapDelete m root.key)
    · rw [prune_cons_stop destruct now root rest m h]
      rfl
termination_by pq.length
decreasing_by
  rw [heapPop_length _ (by simp)]
  simp

/-- A prune error is a value the destructor returned on some heap item,
propagated as is. -/
theorem prune_err_mem {V E : Type} (destruct : V → Option E) (now : Nat)
    (pq m : List (Item V)) (e : E)
    (he : (prune destruct now pq m).err = some e) :
    ∃ it : Item V, it ∈ pq ∧ destruct it.value = some e := by
  match pq with
  | [] =>
    rw [prune_nil] at he
    cases he
  | root :: rest =>
    by_cases h : root.deadtime < now
    · cases hd : destruct root.value with
      | some e2 =>
        rw [prune_cons_err destruct now root rest m e2 h hd] at he
        cases he
        exact ⟨root, by simp, hd⟩
      | none =>
        rw [prune_cons_ok destruct now root rest m h hd] at he
        obtain ⟨it, hit, hde⟩ := prune_err_mem destruct now
          (heapPop (root :: rest)).2 (mapDelete m root.key) e he
        have hmem : it ∈ root :: rest := by
          have hperm := heapPop_perm _ root (by simp) (heapPop_fst_cons root rest)
          exact hperm.mem_iff.1 (by simp [hit])
        exact ⟨it, hmem, hde⟩
    · rw [prune_cons_stop destruct now root rest m h] at he
      cases he
termination_by pq.length
decreasing_by
  rw [heapPop_length _ (by simp)]
  simp

/-- When a prune pass returns without error, the remaining heap is either
empty or headed by an entry whose dead time has not passed. -/
theorem prune_success_exit {V E : Type} (destruct : V → Option E) (now : Nat)
    (pq m : List (Item V))
    (he : (prune destruct now pq m).err = none) :
    (prune destruct now pq m).pq = [] ∨
      ∃ (root : Item V) (rest2 : List (Item V)),
        (prune destruct now pq m).pq = root :: rest2 ∧ ¬root.deadtime < now := by
  match pq with
  | [] =>
    rw [prune_nil]
    exact Or.inl rfl
  | root :: rest =>
    by_cases h : root.deadtime < now
    · cases hd : destruct root.value with
      | some e2 =>
        rw [prune_cons_err destruct now root rest m e2 h hd] at he
        cases he
      | none =>
        rw [prune_cons_ok destruct now root rest m h hd] at he ⊢
        exact prune_success_exit destruct now (heapPop (root :: rest)).2
          (mapDelete m root.key) he
    · rw [prune_cons_stop destruct now root rest m h]
      exact Or.inr ⟨root, rest, rfl, h⟩
termination_by pq.length
decreasing_by
  all_goals
    rw [heapPop_length _ (by simp)]
    simp

/-- Exactness of a prune pass over a heap-ordered queue with a destructor
that never fails: no error, the destroyed items are exactly the ones whose
dead time is strictly before `now` and are destroyed in ascending dead-time
order, and the untouched remainder (still heap-ordered) is exactly the rest. -/
theorem prune_exact {V E : Type} (destruct : V → Option E) (now : Nat)
    (pq m : List (Item V)) (hh : IsHeap pq) (hok : ∀ v, destruct v = none) :
    (prune destruct now pq m).err = none ∧
      ((prune destruct now pq m).destroyed).Perm
        (pq.filter (fun it => it.deadtime < now)) ∧
      ((prune destruct now pq m).pq).Perm
        (pq.filter (fun it => ¬it.deadtime < now)) ∧
      List.Sorted (· ≤ ·)
        (((prune destruct now pq m).destroyed).map Item.deadtime) ∧
      IsHeap ((prune destruct now pq m).pq) := by
  match pq with
  | [] =>
    rw [prune_nil]
    exact ⟨rfl, by simp, by simp, by simp, isHeap_nil⟩
  | root :: rest =>
    have hrmin : ∀ x ∈ root :: rest, root.deadtime ≤ x.deadtime :=
      fun x hx => isHeap_root_min _ root x hh rfl hx
    by_cases h : root.deadtime < now
    · rw [prune_cons_ok destruct now root rest m h (hok root.value)]
      have hpop2 : IsHeap ((heapPop (root :: rest)).2) := heapPop_isHeap _ hh
      have hperm : (root :: (heapPop (root :: rest)).2).Perm (root :: rest) :=
        heapPop_perm _ root (by simp) (heapPop_fst_cons root rest)
      have hperm2 : ((heapPop (root :: rest)).2).Perm rest := hperm.cons_inv
      obtain ⟨ihe, ihd, ihp, ihs, ihh⟩ := prune_exact destruct now
        (heapPop (root :: rest)).2 (mapDelete m root.key) hpop2 hok
      refine ⟨ihe, ?_, ?_, ?_, ihh⟩
      · have hfc : (root :: rest).filter (fun it => it.deadtime < now)
            = root :: rest.filter (fun it => it.deadtime < now) :=
          List.filter_cons_of_pos (by simpa using h)
        rw [hfc]
        exact (ihd.trans (hperm2.filter _)).cons root
      · have hfc : (root :: rest).filter (fun it => ¬it.deadtime < now)
            = rest.filter (fun it => ¬it.deadtime < now) :=
          List.filter_cons_of_neg (by simpa using h)
        rw [hfc]
        exact ihp.trans (hperm2.filter _)
      · rw [List.map_cons, List.sorted_cons]
        constructor
        · intro b hb
          obtain ⟨it, hit, hbe⟩ := List.mem_map.1 hb
          have hit1 : it ∈ (heapPop (root :: rest)).2 :=
            List.mem_of_mem_filter (ihd.mem_iff.1 hit)
          have hit2 : it ∈ root :: rest :=
            hperm.mem_iff.1 (List.mem_cons_of_mem root hit1)
          rw [← hbe]
          exact hrmin it hit2
        · exact ihs
    · rw [prune_cons_stop destruct now root rest m h]
      have hnone : ∀ x ∈ root :: rest, ¬x.deadtime < now := by
        intro x hx
        have := hrmin x hx
        omega
      refine ⟨rfl, ?_, ?_, by simp, hh⟩
      · rw [List.filter_eq_nil_iff.2 (by simpa using hnone)]
      · rw [List.filter_eq_self.2 (by simpa using hnone)]
termination_by pq.length
decreasing_by
  rw [heapPop_length _ (by simp)]
  simp

/-! ### Association-list lemmas for the key map -/

theorem mapLookup_some_key {V : Type} (m : List (Item V)) (k : String)
    (i : Item V) (h : mapLookup m k = some i) : i.key = k ∧ i ∈ m := by
  unfold mapLookup at h
  refine ⟨?_, List.mem_of_find?_eq_some h⟩
  have := List.find?_some h
  simpa using this

theorem mapLookup_none_iff {V : Type} (m : List (Item V)) (k : String) :
    mapLookup m k = none ↔ ∀ x ∈ m, x.key ≠ k := by
  unfold mapLookup
  rw [List.find?_eq_none]
  constructor
  · intro h x hx
    have := h x hx
    simpa using this
  · intro h x hx
    simpa using h x hx

theorem mapDelete_lookup_self {V : Type} (m : List (Item V)) (k : String) :
    mapLookup (mapDelete m k) k = none := by
  unfold mapLookup mapDelete
  rw [List.find?_eq_none]
  intro x hx
  have := List.of_mem_filter hx
  simpa using this

theorem mapDelete_lookup_ne {V : Type} (m : List (Item V)) (j k : String)
    (h : j ≠ k) : mapLookup (mapDelete m j) k = mapLookup m k := by
  unfold mapLookup mapDelete
  induction m with
  | nil => rfl
  | cons it rest ih =>
    by_cases hj : it.key = j
    · rw [List.filter_cons_of_neg (by simp [bne, hj])]
      rw [ih]
      have hk : (it.key == k) = false := by
        simp only [beq_eq_false_iff_ne]
        rw [hj]
        exact h
      simp only [List.find?_cons, hk]
    · rw [List.filter_cons_of_pos (by simp [bne, hj])]
      simp only [List.find?_cons]
      cases hcc : (it.key == k) with
      | true => simp only [hcc]
      | false =>
        simp only [hcc]
        exact ih

theorem mapDelete_sublist {V : Type} (m : List (Item V)) (k : String) :
    (mapDelete m k).Sublist m := List.filter_sublist m

theorem foldl_mapDelete_lookup_ne {V : Type} (d : List (Item V))
    (m : List (Item V)) (k : String) (h : ∀ it ∈ d, it.key ≠ k) :
    mapLookup (d.foldl (fun mm it => mapDelete mm it.key) m) k
      = mapLookup m k := by
  induction d generalizing m with
  | nil => rfl
  | cons it rest ih =>
    rw [List.foldl_cons, ih _ (fun x hx => h x (List.mem_cons_of_mem it hx))]
    exact mapDelete_lookup_ne m it.key k (h it (List.mem_cons_self it rest))

theorem foldl_mapDelete_sublist {V : Type} (d : List (Item V))
    (m : List (Item V)) :
    (d.foldl (fun mm it => mapDelete mm it.key) m).Sublist m := by
  induction d generalizing m with
  | nil => exact List.Sublist.refl m
  | cons it rest ih =>
    exact (ih (mapDelete m it.key)).trans (mapDelete_sublist m it.key)

theorem mapSet_lookup_self {V : Type} (m : List (Item V)) (k : String)
    (x : Item V) (hx : x.key = k) :
    mapLookup (mapSet m k x) k = (mapLookup m k).map (fun _ => x) := by
  unfold mapLookup mapSet
  induction m with
  | nil => rfl
  | cons it rest ih =>
    have hxk : (x.key == k) = true := by simpa using hx
    simp only [List.map_cons]
    by_cases hcc : (it.key == k) = true
    · rw [if_pos hcc]
      simp only [List.find?_cons, hxk, hcc]
      rfl
    · rw [if_neg hcc]
      have hcf : (it.key == k) = false := by simpa using hcc
      simp only [List.find?_cons, hcf]
      exact ih

theorem mapSet_lookup_ne {V : Type} (m : List (Item V)) (k kq : String)
    (x : Item V) (hx : x.key = k) (h : kq ≠ k) :
    mapLookup (mapSet m k x) kq = mapLookup m kq := by
  unfold mapLookup mapSet
  induction m with
  | nil => rfl
  | cons it rest ih =>
    simp only [List.map_cons]
    by_cases hcc : (it.key == k) = true
    · have h1 : (x.key == kq) = false := by
        simp only [beq_eq_false_iff_ne]
        rw [hx]
        exact fun hh => h hh.symm
      have h2 : (it.key == kq) = false := by
        simp only [beq_eq_false_iff_ne]
        have hik : it.key = k := by simpa using hcc
        rw [hik]
        exact fun hh => h hh.symm
      rw [if_pos hcc]
      simp only [List.find?_cons, h1, h2]
      exact ih
    · rw [if_neg hcc]
      simp only [List.find?_cons]
      cases hq : (it.key == kq) with
      | true => simp only [hq]
      | false =>
        simp only [hq]
        exact ih

theorem mapSet_keys {V : Type} (m : List (Item V)) (k : String) (x : Item V)
    (hx : x.key = k) : (mapSet m k x).map Item.key = m.map Item.key := by
  unfold mapSet
  rw [List.map_map]
  apply List.map_congr_left
  intro it hit
  by_cases hcc : it.key = k
  · simp only [Function.comp]
    rw [if_pos (by simpa using hcc), hx, hcc]
  · simp only [Function.comp]
    rw [if_neg (by simpa using hcc)]

theorem mapLookup_append_some {V : Type} (m : List (Item V)) (x i : Item V)
    (k : String) (h : mapLookup m k = some i) :
    mapLookup (m ++ [x]) k = some i := by
  unfold mapLookup at h ⊢
  induction m with
  | nil => cases h
  | cons it rest ih =>
    rw [List.find?_cons] at h
    rw [List.cons_append, List.find?_cons]
    cases hcc : (it.key == k) with
    | true =>
      simp only [hcc] at h ⊢
      exact h
    | false =>
      simp only [hcc] at h ⊢
      exact ih h

theorem mapLookup_append_none {V : Type} (m : List (Item V)) (x : Item V)
    (k : String) (h : mapLookup m k = none) :
    mapLookup (m ++ [x]) k = if x.key == k then some x else none := by
  unfold mapLookup at h ⊢
  induction m with
  | nil =>
    rw [List.nil_append, List.find?_cons]
    cases hcc : (x.key == k) with
    | true => simp [hcc]
    | false => simp [hcc]
  | cons it rest ih =>
    rw [List.cons_append, List.find?_cons]
    rw [List.find?_cons] at h
    cases hcc : (it.key == k) with
    | true => simp only [hcc] at h; cases h
    | false =>
      simp only [hcc] at h ⊢
      exact ih h

/-! ### Clear -/

theorem drainLoop_eq_nil {V : Type} (pq : List (Item V)) : drainLoop pq = [] := by
  match pq with
  | [] => rw [drainLoop]
  | root :: rest =>
    rw [drainLoop]
    exact drainLoop_eq_nil (heapPop (root :: rest)).2
termination_by pq.length
decreasing_by
  rw [heapPop_length _ (by simp)]
  simp

theorem clearLoop_ok {V E : Type} (destruct : V → Option E)
    (m : List (Item V)) (h : (clearLoop destruct m).2.2 = none) :
    (clearLoop destruct m).1 = [] ∧ (clearLoop destruct m).2.1 = m := by
  induction m with
  | nil => exact ⟨rfl, rfl⟩
  | cons it rest ih =>
    cases hd : destruct it.value with
    | some e =>
      rw [clearLoop] at h
      simp only [hd] at h
      simp at h
    | none =>
      rw [clearLoop] at h ⊢
      simp only [hd] at h ⊢
      obtain ⟨h1, h2⟩ := ih h
      exact ⟨h1, by rw [h2]⟩

theorem clearLoop_err {V E : Type} (destruct : V → Option E)
    (m : List (Item V)) (er : PoolErr E)
    (h : (clearLoop destruct m).2.2 = some er) :
    ∃ (it : Item V) (e : E), it ∈ m ∧ destruct it.value = some e ∧
      er = PoolErr.close it.key e := by
  induction m with
  | nil => cases h
  | cons it rest ih =>
    cases hd : destruct it.value with
    | some e =>
      rw [clearLoop] at h
      simp only [hd] at h
      simp at h
      exact ⟨it, e, by simp, hd, by rw [h]⟩
    | none =>
      rw [clearLoop] at h
      simp only [hd] at h
      obtain ⟨it2, e2, hmem, hde, her⟩ := ih h
      exact ⟨it2, e2, List.mem_cons_of_mem it hmem, hde, her⟩

/-! ### pqRemove under distinct keys -/

theorem pqRemove_no_key {V : Type} (pq : List (Item V)) (k : String)
    (hnd : (pq.map Item.key).Nodup) :
    ∀ it ∈ pqRemove pq k, it.key ≠ k := by
  rcases pqRemove_spec pq k with ⟨heq, hno⟩ | ⟨x, hx, hxk, hperm⟩
  · rw [heq]
    exact hno
  · intro it hit hk
    have hkeys : (x.key :: (pqRemove pq k).map Item.key).Perm (pq.map Item.key) := by
      have := hperm.map Item.key
      simpa using this
    have hnd2 : (x.key :: (pqRemove pq k).map Item.key).Nodup :=
      hnd.perm hkeys.symm
    have hnotin : x.key ∉ (pqRemove pq k).map Item.key := (List.nodup_cons.1 hnd2).1
    apply hnotin
    have hmem : it.key ∈ (pqRemove pq k).map Item.key :=
      List.mem_map_of_mem Item.key hit
    rw [hk] at hmem
    rw [hxk]
    exact hmem

theorem pqRemove_subset {V : Type} (pq : List (Item V)) (k : String) :
    ∀ it ∈ pqRemove pq k, it ∈ pq := by
  rcases pqRemove_spec pq k with ⟨heq, -⟩ | ⟨x, -, -, hperm⟩
  · rw [heq]
    exact fun it hit => hit
  · intro it hit
    exact hperm.mem_iff.1 (List.mem_cons_of_mem x hit)

theorem pqRemove_keys_nodup {V : Type} (pq : List (Item V)) (k : String)
    (hnd : (pq.map Item.key).Nodup) :
    ((pqRemove pq k).map Item.key).Nodup := by
  rcases pqRemove_spec pq k with ⟨heq, -⟩ | ⟨x, -, -, hperm⟩
  · rw [heq]
    exact hnd
  · have hkeys : (x.key :: (pqRemove pq k).map Item.key).Perm (pq.map Item.key) := by
      have := hperm.map Item.key
      simpa using this
    exact (List.nodup_cons.1 (hnd.perm hkeys.symm)).2

/-! ### Prune corollaries and the pool invariant -/

theorem prune_destroyed_subset {V E : Type} (destruct : V → Option E)
    (now : Nat) (pq m : List (Item V)) :
    ∀ it ∈ (prune destruct now pq m).destroyed, it ∈ pq := fun it hit =>
  (prune_perm destruct now pq m).mem_iff.1 (List.mem_append.2 (Or.inl hit))

theorem prune_pq_subset {V E : Type} (destruct : V → Option E)
    (now : Nat) (pq m : List (Item V)) :
    ∀ it ∈ (prune destruct now pq m).pq, it ∈ pq := fun it hit =>
  (prune_perm destruct now pq m).mem_iff.1 (List.mem_append.2 (Or.inr hit))

theorem prune_lookup_ne {V E : Type} (destruct : V → Option E) (now : Nat)
    (pq m : List (Item V)) (k : String) (hk : ∀ it ∈ pq, it.key ≠ k) :
    mapLookup ((prune destruct now pq m).m) k = mapLookup m k := by
  rw [prune_m]
  exact foldl_mapDelete_lookup_ne _ _ _
    (fun it hit => hk it (prune_destroyed_subset destruct now pq m it hit))

theorem prune_m_sublist {V E : Type} (destruct : V → Option E) (now : Nat)
    (pq m : List (Item V)) : ((prune destruct now pq m).m).Sublist m := by
  rw [prune_m]
  exact foldl_mapDelete_sublist _ _

theorem prune_pq_keys_nodup {V E : Type} (destruct : V → Option E) (now : Nat)
    (pq m : List (Item V)) (hnd : (pq.map Item.key).Nodup) :
    (((prune destruct now pq m).pq).map Item.key).Nodup := by
  have hp := (prune_perm destruct now pq m).map Item.key
  rw [List.map_append] at hp
  exact (List.nodup_append.1 (hnd.perm hp.symm)).2.1

theorem prune_m_keys_nodup {V E : Type} (destruct : V → Option E) (now : Nat)
    (pq m : List (Item V)) (hnd : (m.map Item.key).Nodup) :
    (((prune destruct now pq m).m).map Item.key).Nodup :=
  ((prune_m_sublist destruct now pq m).map Item.key).nodup hnd

/-- The prune pass preserves the key-resolution invariant: every remaining
heap item still resolves in the remaining map to an entry with a
non-positive reference counter. -/
theorem prune_pqInM {V E : Type} (destruct : V → Option E) (now : Nat)
    (pq m : List (Item V)) (h1 : (pq.map Item.key).Nodup)
    (h3 : ∀ it ∈ pq, ∃ j, mapLookup m it.key = some j ∧ j.refCounter ≤ 0) :
    ∀ it ∈ (prune destruct now pq m).pq,
      ∃ j, mapLookup ((prune destruct now pq m).m) it.key = some j ∧
        j.refCounter ≤ 0 := by
  match pq with
  | [] =>
    rw [prune_nil]
    intro it hit
    cases hit
  | root :: rest =>
    by_cases h : root.deadtime < now
    · have hperm : (root :: (heapPop (root :: rest)).2).Perm (root :: rest) :=
        heapPop_perm _ root (by simp) (heapPop_fst_cons root rest)
      have hkeys : (root.key :: ((heapPop (root :: rest)).2).map Item.key).Perm
          ((root :: rest).map Item.key) := by
        have := hperm.map Item.key
        simpa using this
      have hnd2 := h1.perm hkeys.symm
      have h1' : (((heapPop (root :: rest)).2).map Item.key).Nodup :=
        (List.nodup_cons.1 hnd2).2
      have hne : ∀ it ∈ (heapPop (root :: rest)).2, it.key ≠ root.key := by
        intro it hit hkk
        exact (List.nodup_cons.1 hnd2).1 (hkk ▸ List.mem_map_of_mem Item.key hit)
      have h3' : ∀ it ∈ (heapPop (root :: rest)).2,
          ∃ j, mapLookup (mapDelete m root.key) it.key = some j ∧
            j.refCounter ≤ 0 := by
        intro it hit
        obtain ⟨j, hj, hjr⟩ := h3 it (hperm.mem_iff.1 (List.mem_cons_of_mem root hit))
        exact ⟨j, by rw [mapDelete_lookup_ne m root.key it.key
          (fun hh => hne it hit hh.symm)]; exact hj, hjr⟩
      cases hd : destruct root.value with
      | some e =>
        rw [prune_cons_err destruct now root rest m e h hd]
        exact h3'
      | none =>
        rw [prune_cons_ok destruct now root rest m h hd]
        exact prune_pqInM destruct now (heapPop (root :: rest)).2
          (mapDelete m root.key) h1' h3'
    · rw [prune_cons_stop destruct now root rest m h]
      exact h3
termination_by pq.length
decreasing_by
  rw [heapPop_length _ (by simp)]
  simp

/-- The state invariant maintained by every reachable pool state: heap keys
and map keys are duplicate free, and every heap item resolves in the map to
an entry whose reference counter is non-positive. -/
structure Inv {V : Type} (s : PoolState V) : Prop where
  pqKeys : ((s.pq).map Item.key).Nodup
  mKeys : ((s.m).map Item.key).Nodup
  pqInM : ∀ it ∈ s.pq, ∃ j, mapLookup s.m it.key = some j ∧ j.refCounter ≤ 0

theorem initState_inv {V : Type} : Inv (initState V) := by
  refine ⟨by simp [initState], by simp [initState], ?_⟩
  intro it hit
  simp [initState] at hit

theorem Release_inv {V : Type} (now ttl : Nat) (s : PoolState V) (k : String)
    (h : Inv s) : Inv (Release now ttl s k) := by
  unfold Release
  cases hl : mapLookup s.m k with
  | none => exact h
  | some i =>
    obtain ⟨hik, him⟩ := mapLookup_some_key s.m k i hl
    dsimp only
    by_cases hz : i.refCounter - 1 = 0
    · rw [if_pos hz]
      have hknotin : k ∉ (s.pq).map Item.key := by
        intro hmem
        obtain ⟨it, hit, hitk⟩ := List.mem_map.1 hmem
        obtain ⟨j, hj, hjr⟩ := h.pqInM it hit
        rw [hitk, hl] at hj
        cases hj
        omega
      have hpush : (heapPush s.pq
          { i with refCounter := i.refCounter - 1, deadtime := now + ttl }).Perm
          ({ i with refCounter := i.refCounter - 1, deadtime := now + ttl } :: s.pq) :=
        heapPush_perm _ _
      have hkeysperm := hpush.map Item.key
      have hknotin2 : ({ i with refCounter := i.refCounter - 1, deadtime := now + ttl } : Item V).key ∉ (s.pq).map Item.key := by
        simpa [hik] using hknotin
      refine ⟨?_, ?_, ?_⟩
      · exact (List.nodup_cons.2 ⟨hknotin2, h.pqKeys⟩).perm hkeysperm.symm
      · rw [mapSet_keys s.m k _ (by simpa using hik)]
        exact h.mKeys
      · intro it hit
        have hit2 : it ∈ ({ i with refCounter := i.refCounter - 1, deadtime := now + ttl } :: s.pq) := hpush.mem_iff.1 hit
        rcases List.mem_cons.1 hit2 with rfl | hit3
        · refine ⟨{ i with refCounter := i.refCounter - 1, deadtime := now + ttl }, ?_, by simpa using hz.le⟩
          have := mapSet_lookup_self s.m k
            { i with refCounter := i.refCounter - 1, deadtime := now + ttl }
            (by simpa using hik)
          rw [hl] at this
          simpa [hik] using this
        · have hitk : it.key ≠ k := by
            intro hh
            exact hknotin (hh ▸ List.mem_map_of_mem Item.key hit3)
          obtain ⟨j, hj, hjr⟩ := h.pqInM it hit3
          refine ⟨j, ?_, hjr⟩
          rw [mapSet_lookup_ne s.m k it.key _ (by simpa using hik) hitk]
          exact hj
    · rw [if_neg hz]
      refine ⟨h.pqKeys, ?_, ?_⟩
      · rw [mapSet_keys s.m k _ (by simpa using hik)]
        exact h.mKeys
      · intro it hit
        obtain ⟨j, hj, hjr⟩ := h.pqInM it hit
        by_cases hitk : it.key = k
        · rw [hitk] at hj
          rw [hl] at hj
          cases hj
          refine ⟨{ i with refCounter := i.refCounter - 1 }, ?_, by
            show i.refCounter - 1 ≤ 0
            omega⟩
          have := mapSet_lookup_self s.m k { i with refCounter := i.refCounter - 1 }
            (by simpa using hik)
          rw [hl] at this
          rw [hitk]
          simpa using this
        · refine ⟨j, ?_, hjr⟩
          rw [mapSet_lookup_ne s.m k it.key _ (by simpa using hik) hitk]
          exact hj

theorem Get_inv {V E : Type} (ctor : String → Except E V)
    (destruct : V → Option E) (now : Nat) (s : PoolState V) (k : String)
    (h : Inv s) : Inv ((Get ctor destruct now s k).s) := by
  unfold Get
  cases hl : mapLookup s.m k with
  | none =>
    dsimp only
    have hp1 := prune_pq_keys_nodup destruct now s.pq s.m h.pqKeys
    have hp2 := prune_m_keys_nodup destruct now s.pq s.m h.mKeys
    have hp3 := prune_pqInM destruct now s.pq s.m h.pqKeys h.pqInM
    cases he : (prune destruct now s.pq s.m).err with
    | some e => exact ⟨hp1, hp2, hp3⟩
    | none =>
      cases hc : ctor k with
      | error e => exact ⟨hp1, hp2, hp3⟩
      | ok v =>
        refine ⟨hp1, ?_, ?_⟩
        · rw [List.map_append, List.nodup_append]
          refine ⟨hp2, by simp, ?_⟩
          intro a ha hb
          obtain ⟨x, hx, hxa⟩ := List.mem_map.1 ha
          have hxs : x ∈ s.m :=
            (prune_m_sublist destruct now s.pq s.m).subset hx
          have hxk : x.key ≠ k := (mapLookup_none_iff s.m k).1 hl x hxs
          have hak : a = k := by simpa using hb
          exact hxk (by rw [hxa, hak])
        · intro it hit
          obtain ⟨j, hj, hjr⟩ := hp3 it hit
          exact ⟨j, mapLookup_append_some _ _ _ _ hj, hjr⟩
  | some i =>
    dsimp only
    obtain ⟨hik, him⟩ := mapLookup_some_key s.m k i hl
    have hnd1 : ((pqRemove s.pq k).map Item.key).Nodup :=
      pqRemove_keys_nodup s.pq k h.pqKeys
    have hm1keys : ((mapSet s.m k { i with refCounter := i.refCounter + 1 }).map
        Item.key).Nodup := by
      rw [mapSet_keys s.m k _ (by simpa using hik)]
      exact h.mKeys
    have h3' : ∀ it ∈ pqRemove s.pq k,
        ∃ j, mapLookup (mapSet s.m k { i with refCounter := i.refCounter + 1 })
          it.key = some j ∧ j.refCounter ≤ 0 := by
      intro it hit
      have hits : it ∈ s.pq := pqRemove_subset s.pq k it hit
      have hitk : it.key ≠ k := pqRemove_no_key s.pq k h.pqKeys it hit
      obtain ⟨j, hj, hjr⟩ := h.pqInM it hits
      refine ⟨j, ?_, hjr⟩
      rw [mapSet_lookup_ne s.m k it.key _ (by simpa using hik) hitk]
      exact hj
    have hp1 := prune_pq_keys_nodup destruct now (pqRemove s.pq k)
      (mapSet s.m k { i with refCounter := i.refCounter + 1 }) hnd1
    have hp2 := prune_m_keys_nodup destruct now (pqRemove s.pq k)
      (mapSet s.m k { i with refCounter := i.refCounter + 1 }) hm1keys
    have hp3 := prune_pqInM destruct now (pqRemove s.pq k)
      (mapSet s.m k { i with refCounter := i.refCounter + 1 }) hnd1 h3'
    cases he : (prune destruct now (pqRemove s.pq k)
        (mapSet s.m k { i with refCounter := i.refCounter + 1 })).err with
    | some e => exact ⟨hp1, hp2, hp3⟩
    | none => exact ⟨hp1, hp2, hp3⟩

theorem step_inv {V E : Type} (ctor : String → Except E V)
    (destruct : V → Option E) (s : PoolState V) (op : Op) (h : Inv s) :
    Inv (step ctor destruct s op) := by
  cases op with
  | get k now => exact Get_inv ctor destruct now s k h
  | rel k now ttl => exact Release_inv now ttl s k h

/-- Every pool state reached from the empty pool by a sequence of `Get` and
`Release` calls satisfies the invariant. -/
theorem runOps_inv {V E : Type} (ctor : String → Except E V)
    (destruct : V → Option E) (ops : List Op) :
    Inv (runOps ctor destruct ops) := by
  unfold runOps
  have hgen : ∀ s : PoolState V, Inv s →
      Inv (ops.foldl (step ctor destruct) s) := by
    induction ops with
    | nil => exact fun s hs => hs
    | cons op rest ih =>
      intro s hs
      rw [List.foldl_cons]
      exact ih _ (step_inv ctor destruct s op hs)
  exact hgen _ initState_inv

/-! ### Branch characterisations of the public operations -/

theorem Prune_def {V E : Type} (destruct : V → Option E) (now : Nat)
    (s : PoolState V) :
    Prune destruct now s =
      ⟨⟨(prune destruct now s.pq s.m).m, (prune destruct now s.pq s.m).pq⟩,
       (prune destruct now s.pq s.m).destroyed,
       ((prune destruct now s.pq s.m).err).map PoolErr.raw⟩ := rfl

theorem Clear_def {V E : Type} (destruct : V → Option E) (s : PoolState V) :
    Clear destruct s =
      ⟨⟨(clearLoop destruct s.m).1, drainLoop s.pq⟩,
       (clearLoop destruct s.m).2.1, (clearLoop destruct s.m).2.2⟩ := rfl

theorem Get_miss_pruneErr {V E : Type} (ctor : String → Except E V)
    (destruct : V → Option E) (now : Nat) (s : PoolState V) (key : String)
    (e : E) (hl : mapLookup s.m key = none)
    (hp : (prune destruct now s.pq s.m).err = some e) :
    Get ctor destruct now s key =
      ⟨.error (.raw e),
       ⟨(prune destruct now s.pq s.m).m, (prune destruct now s.pq s.m).pq⟩,
       [], (prune destruct now s.pq s.m).destroyed⟩ := by
  simp only [Get, hl, hp]

theorem Get_miss_ctorErr {V E : Type} (ctor : String → Except E V)
    (destruct : V → Option E) (now : Nat) (s : PoolState V) (key : String)
    (e : E) (hl : mapLookup s.m key = none)
    (hp : (prune destruct now s.pq s.m).err = none)
    (hc : ctor key = .error e) :
    Get ctor destruct now s key =
      ⟨.error (.raw e),
       ⟨(prune destruct now s.pq s.m).m, (prune destruct now s.pq s.m).pq⟩,
       [key], (prune destruct now s.pq s.m).destroyed⟩ := by
  simp only [Get, hl, hp, hc]

theorem Get_miss_ok {V E : Type} (ctor : String → Except E V)
    (destruct : V → Option E) (now : Nat) (s : PoolState V) (key : String)
    (v : V) (hl : mapLookup s.m key = none)
    (hp : (prune destruct now s.pq s.m).err = none)
    (hc : ctor key = .ok v) :
    Get ctor destruct now s key =
      ⟨.ok v,
       ⟨(prune destruct now s.pq s.m).m ++ [⟨key, v, 0, 1⟩],
        (prune destruct now s.pq s.m).pq⟩,
       [key], (prune destruct now s.pq s.m).destroyed⟩ := by
  simp only [Get, hl, hp, hc]

theorem Get_hit_err {V E : Type} (ctor : String → Except E V)
    (destruct : V → Option E) (now : Nat) (s : PoolState V) (key : String)
    (i : Item V) (e : E) (hl : mapLookup s.m key = some i)
    (hp : (prune destruct now (pqRemove s.pq key)
      (mapSet s.m key { i with refCounter := i.refCounter + 1 })).err = some e) :
    Get ctor destruct now s key =
      ⟨.error (.raw e),
       ⟨(prune destruct now (pqRemove s.pq key)
           (mapSet s.m key { i with refCounter := i.refCounter + 1 })).m,
        (prune destruct now (pqRemove s.pq key)
           (mapSet s.m key { i with refCounter := i.refCounter + 1 })).pq⟩,
       [],
       (prune destruct now (pqRemove s.pq key)
         (mapSet s.m key { i with refCounter := i.refCounter + 1 })).destroyed⟩ := by
  simp only [Get, hl, hp]

theorem Get_hit_ok {V E : Type} (ctor : String → Except E V)
    (destruct : V → Option E) (now : Nat) (s : PoolState V) (key : String)
    (i : Item V) (hl : mapLookup s.m key = some i)
    (hp : (prune destruct now (pqRemove s.pq key)
      (mapSet s.m key { i with refCounter := i.refCounter + 1 })).err = none) :
    Get ctor destruct now s key =
      ⟨.ok i.value,
       ⟨(prune destruct now (pqRemove s.pq key)
           (mapSet s.m key { i with refCounter := i.refCounter + 1 })).m,
        (prune destruct now (pqRemove s.pq key)
           (mapSet s.m key { i with refCounter := i.refCounter + 1 })).pq⟩,
       [],
       (prune destruct now (pqRemove s.pq key)
         (mapSet s.m key { i with refCounter := i.refCounter + 1 })).destroyed⟩ := by
  simp only [Get, hl, hp]

/-- Every error `Get` returns is a raw (unwrapped) error value: the
constructor's error verbatim, or a destructor error propagated unchanged by
the internal prune pass. -/
theorem Get_ret_error_raw {V E : Type} (ctor : String → Except E V)
    (destruct : V → Option E) (now : Nat) (s : PoolState V) (key : String)
    (er : PoolErr E) (h : (Get ctor destruct now s key).ret = .error er) :
    ∃ e : E, er = PoolErr.raw e := by
  cases hl : mapLookup s.m key with
  | none =>
    cases hp : (prune destruct now s.pq s.m).err with
    | some e =>
      rw [Get_miss_pruneErr ctor destruct now s key e hl hp] at h
      exact ⟨e, (Except.error.inj h).symm⟩
    | none =>
      cases hc : ctor key with
      | error e =>
        rw [Get_miss_ctorErr ctor destruct now s key e hl hp hc] at h
        exact ⟨e, (Except.error.inj h).symm⟩
      | ok v =>
        rw [Get_miss_ok ctor destruct now s key v hl hp hc] at h
        cases h
  | some i =>
    cases hp : (prune destruct now (pqRemove s.pq key)
        (mapSet s.m key { i with refCounter := i.refCounter + 1 })).err with
    | some e =>
      rw [Get_hit_err ctor destruct now s key i e hl hp] at h
      exact ⟨e, (Except.error.inj h).symm⟩
    | none =>
      rw [Get_hit_ok ctor destruct now s key i hl hp] at h
      cases h

/-! ### Concrete instances used by the example theorems -/

/-- A constructor that always succeeds with `7`. -/
def ctor0 : String → Except Nat Nat := fun _ => Except.ok 7

/-- A constructor that always fails with error `5`. -/
def ctorFail0 : String → Except Nat Nat := fun _ => Except.error 5

/-- A destructor that never fails (also models a `nil` destructor). -/
def dOk : Nat → Option Nat := fun _ => none

/-- A destructor that always fails with error `0`. -/
def dFail : Nat → Option Nat := fun _ => some 0

/-- Acquire `"a"`, then release it twice: the second release is unbalanced. -/
def opsNeg : List Op := [Op.get "a" 0, Op.rel "a" 0 1, Op.rel "a" 0 1]

/-- Acquire `"a"` and release it once with ttl 5 at time 0. -/
def opsW1 : List Op := [Op.get "a" 0, Op.rel "a" 0 5]

/-- One idle entry with dead time 5. -/
def sIdle : PoolState Nat := ⟨[⟨"a", 7, 5, 0⟩], [⟨"a", 7, 5, 0⟩]⟩

/-- One idle, already-expired entry with dead time 0. -/
def sExp : PoolState Nat := ⟨[⟨"a", 7, 0, 0⟩], [⟨"a", 7, 0, 0⟩]⟩

/-- Two idle expired entries, heap ordered by dead time. -/
def sTwo : PoolState Nat :=
  ⟨[⟨"a", 7, 0, 0⟩, ⟨"b", 8, 1, 0⟩], [⟨"a", 7, 0, 0⟩, ⟨"b", 8, 1, 0⟩]⟩

/-- Three idle entries; the heap list `[dt 1, dt 3, dt 2]` is min-heap
ordered. -/
def sHeap3 : PoolState Nat :=
  ⟨[⟨"a", 7, 1, 0⟩, ⟨"b", 8, 3, 0⟩, ⟨"c", 9, 2, 0⟩],
   [⟨"a", 7, 1, 0⟩, ⟨"b", 8, 3, 0⟩, ⟨"c", 9, 2, 0⟩]⟩

/-- One active entry, not in the heap. -/
def sClr : PoolState Nat := ⟨[⟨"a", 7, 0, 1⟩], []⟩

/-- One active entry (`"a"`) and one idle expired entry (`"b"`). -/
def sMix : PoolState Nat :=
  ⟨[⟨"a", 7, 0, 1⟩, ⟨"b", 8, 0, 0⟩], [⟨"b", 8, 0, 0⟩]⟩

/-- One active and one idle entry, for clearing. -/
def sW5 : PoolState Nat :=
  ⟨[⟨"a", 7, 0, 1⟩, ⟨"b", 8, 2, 0⟩], [⟨"b", 8, 2, 0⟩]⟩

/-! ### Claims -/

/-- C7: `Release` on a key not currently tracked by the pool is a complete
no-op: the state (map and eviction heap) is returned unchanged.  `Release`
has no error channel and, by its definition, never invokes the constructor
or the destructor, so "no error, no callback" holds by construction. -/
theorem claim_C7 {V : Type} (now ttl : Nat) (s : PoolState V) (key : String)
    (h : mapLookup s.m key = none) : Release now ttl s key = s := by
  unfold Release
  rw [h]

theorem claim_C7_witness :
    mapLookup (initState Nat).m "a" = none ∧
      Release 0 5 (initState Nat) "a" = initState Nat :=
  ⟨rfl, claim_C7 0 5 (initState Nat) "a" rfl⟩

/-- C5: a `Clear` call that returns no error destroys exactly the tracked
entries (the destroyed list is the whole map, so each previously tracked
entry is handed to the destructor exactly once), and afterwards both the map
and the eviction heap are empty.  The destruction order is the model's map
iteration order; the claim leaves the order unspecified. -/
theorem claim_C5 {V E : Type} (destruct : V → Option E) (s : PoolState V)
    (h : (Clear destruct s).err = none) :
    (Clear destruct s).destroyed = s.m ∧ (Clear destruct s).s.m = [] ∧
      (Clear destruct s).s.pq = [] := by
  rw [Clear_def] at h ⊢
  obtain ⟨h1, h2⟩ := clearLoop_ok destruct s.m h
  exact ⟨h2, h1, drainLoop_eq_nil s.pq⟩

theorem claim_C5_witness :
    (Clear dOk sW5).err = none ∧
      ((Clear dOk sW5).destroyed = sW5.m ∧ (Clear dOk sW5).s.m = [] ∧
        (Clear dOk sW5).s.pq = []) :=
  ⟨by simp [Clear, clearLoop, dOk, sW5, drainLoop, heapPop, siftDown, swapIdx],
   claim_C5 dOk sW5
     (by simp [Clear, clearLoop, dOk, sW5, drainLoop, heapPop, siftDown, swapIdx])⟩

/-- C9: after a `Clear` whose destructor failed, the eviction heap has
already been fully drained, so the entries left in the map are absent from
the heap and a subsequent `Prune` — with any time source value, however far
advanced, and any destructor — destroys nothing and leaves the state
untouched.  (Only another `Clear`, or re-acquiring and re-releasing a
leftover key, can ever remove it.) -/
theorem claim_C9 {V E E2 : Type} (destruct : V → Option E) (s : PoolState V)
    (er : PoolErr E) (h : (Clear destruct s).err = some er) :
    (Clear destruct s).s.pq = [] ∧
      ∀ (destruct2 : V → Option E2) (now : Nat),
        (Prune destruct2 now ((Clear destruct s).s)).destroyed = [] ∧
        (Prune destruct2 now ((Clear destruct s).s)).s = (Clear destruct s).s ∧
        (Prune destruct2 now ((Clear destruct s).s)).err = none := by
  have hpq : (Clear destruct s).s.pq = [] := by
    rw [Clear_def]
    exact drainLoop_eq_nil s.pq
  refine ⟨hpq, ?_⟩
  intro destruct2 now
  rw [Prune_def, hpq, prune_nil]
  refine ⟨rfl, ?_, rfl⟩
  rw [← hpq]

theorem claim_C9_witness :
    (Clear dFail sClr).err = some (PoolErr.close "a" 0) ∧
      (Clear dFail sClr).s.pq = [] ∧
      (Prune dOk 1000 ((Clear dFail sClr).s)).destroyed = [] ∧
      (Prune dOk 1000 ((Clear dFail sClr).s)).s = (Clear dFail sClr).s := by
  have h : (Clear dFail sClr).err = some (PoolErr.close "a" 0) := by
    simp [Clear, clearLoop, dFail, sClr, drainLoop]
  have hmain := @claim_C9 Nat Nat Nat dFail sClr (PoolErr.close "a" 0) h
  exact ⟨h, hmain.1, (hmain.2 dOk 1000).1, (hmain.2 dOk 1000).2.1⟩

/-- C4: when the constructor fails during `Get` for an unseen key, the
constructor's error is returned verbatim (as a raw, unwrapped error), no
entry is created for that key, the destructor was not invoked for that key,
and the resulting state is exactly the state left by the completed
opportunistic prune pass that `Get` runs before constructing — no partial
state for the key is left behind. -/
theorem claim_C4 {V E : Type} (ctor : String → Except E V)
    (destruct : V → Option E) (now : Nat) (s : PoolState V) (key : String)
    (e : E) (hinv : Inv s) (hl : mapLookup s.m key = none)
    (hp : (prune destruct now s.pq s.m).err = none)
    (hc : ctor key = .error e) :
    (Get ctor destruct now s key).ret = .error (.raw e) ∧
      mapLookup ((Get ctor destruct now s key).s.m) key = none ∧
      key ∉ ((Get ctor destruct now s key).destroyed).map Item.key ∧
      (Get ctor destruct now s key).s =
        ⟨(prune destruct now s.pq s.m).m, (prune destruct now s.pq s.m).pq⟩ := by
  rw [Get_miss_ctorErr ctor destruct now s key e hl hp hc]
  refine ⟨rfl, ?_, ?_, rfl⟩
  · rw [mapLookup_none_iff]
    intro x hx
    exact (mapLookup_none_iff s.m key).1 hl x
      ((prune_m_sublist destruct now s.pq s.m).subset hx)
  · intro hmem
    obtain ⟨x, hx, hxk⟩ := List.mem_map.1 hmem
    have hxs : x ∈ s.pq := prune_destroyed_subset destruct now s.pq s.m x hx
    obtain ⟨j, hj, -⟩ := hinv.pqInM x hxs
    rw [hxk, hl] at hj
    cases hj

theorem claim_C4_witness :
    mapLookup (initState Nat).m "a" = none ∧ ctorFail0 "a" = .error 5 ∧
      ((Get ctorFail0 dOk 0 (initState Nat) "a").ret = .error (.raw 5) ∧
        mapLookup ((Get ctorFail0 dOk 0 (initState Nat) "a").s.m) "a" = none ∧
        "a" ∉ ((Get ctorFail0 dOk 0 (initState Nat) "a").destroyed).map Item.key ∧
        (Get ctorFail0 dOk 0 (initState Nat) "a").s =
          ⟨(prune dOk 0 (initState Nat).pq (initState Nat).m).m,
           (prune dOk 0 (initState Nat).pq (initState Nat).m).pq⟩) :=
  ⟨rfl, rfl,
   claim_C4 ctorFail0 dOk 0 (initState Nat) "a" 5 initState_inv rfl
     (by
       show (prune dOk 0 ([] : List (Item Nat)) []).err = none
       rw [prune_nil])
     rfl⟩

/-- C6: `Get` on a key that is idle (reference counter 0, dead time in the
future) revives it: the constructor is not invoked (no constructed keys),
the entry's reference counter becomes 1, the entry is removed from the
eviction heap, and the opportunistic prune pass run within the same `Get`
call does not destroy the revived entry.  The distinct-heap-keys hypothesis
is part of the pool invariant (`Inv`). -/
theorem claim_C6 {V E : Type} (ctor : String → Except E V)
    (destruct : V → Option E) (now : Nat) (s : PoolState V) (key : String)
    (i : Item V) (hl : mapLookup s.m key = some i) (hrc : i.refCounter = 0)
    (hfut : now < i.deadtime) (hnd : (s.pq.map Item.key).Nodup) :
    (Get ctor destruct now s key).constructed = [] ∧
      mapLookup ((Get ctor destruct now s key).s.m) key
        = some ⟨i.key, i.value, i.deadtime, 1⟩ ∧
      key ∉ ((Get ctor destruct now s key).s.pq).map Item.key ∧
      key ∉ ((Get ctor destruct now s key).destroyed).map Item.key := by
  obtain ⟨hik, -⟩ := mapLookup_some_key s.m key i hl
  have hkm1 : mapLookup (mapSet s.m key { i with refCounter := i.refCounter + 1 })
      key = some { i with refCounter := i.refCounter + 1 } := by
    have hself := mapSet_lookup_self s.m key
      { i with refCounter := i.refCounter + 1 } (by simpa using hik)
    rw [hl] at hself
    simpa using hself
  have hpq1ne : ∀ it ∈ pqRemove s.pq key, it.key ≠ key :=
    pqRemove_no_key s.pq key hnd
  have hlk : mapLookup ((prune destruct now (pqRemove s.pq key)
      (mapSet s.m key { i with refCounter := i.refCounter + 1 })).m) key
      = some { i with refCounter := i.refCounter + 1 } := by
    rw [prune_lookup_ne _ _ _ _ _ hpq1ne]
    exact hkm1
  have hitem : ({ i with refCounter := i.refCounter + 1 } : Item V)
      = ⟨i.key, i.value, i.deadtime, 1⟩ := by
    simp [hrc]
  have hlk2 : mapLookup ((prune destruct now (pqRemove s.pq key)
      (mapSet s.m key { i with refCounter := i.refCounter + 1 })).m) key
      = some ⟨i.key, i.value, i.deadtime, 1⟩ := by
    rw [hlk, hitem]
  have hnotinpq : key ∉ ((prune destruct now (pqRemove s.pq key)
      (mapSet s.m key { i with refCounter := i.refCounter + 1 })).pq).map
        Item.key := by
    intro hmem
    obtain ⟨x, hx, hxk⟩ := List.mem_map.1 hmem
    exact hpq1ne x (prune_pq_subset _ _ _ _ x hx) hxk
  have hnotind : key ∉ ((prune destruct now (pqRemove s.pq key)
      (mapSet s.m key { i with refCounter := i.refCounter + 1 })).destroyed).map
        Item.key := by
    intro hmem
    obtain ⟨x, hx, hxk⟩ := List.mem_map.1 hmem
    exact hpq1ne x (prune_destroyed_subset _ _ _ _ x hx) hxk
  cases hp : (prune destruct now (pqRemove s.pq key)
      (mapSet s.m key { i with refCounter := i.refCounter + 1 })).err with
  | some e =>
    rw [Get_hit_err ctor destruct now s key i e hl hp]
    exact ⟨rfl, hlk2, hnotinpq, hnotind⟩
  | none =>
    rw [Get_hit_ok ctor destruct now s key i hl hp]
    exact ⟨rfl, hlk2, hnotinpq, hnotind⟩

theorem claim_C6_witness :
    mapLookup sIdle.m "a" = some ⟨"a", 7, 5, 0⟩ ∧
      ((Get ctor0 dOk 0 sIdle "a").constructed = [] ∧
        mapLookup ((Get ctor0 dOk 0 sIdle "a").s.m) "a" = some ⟨"a", 7, 5, 1⟩ ∧
        "a" ∉ ((Get ctor0 dOk 0 sIdle "a").s.pq).map Item.key ∧
        "a" ∉ ((Get ctor0 dOk 0 sIdle "a").destroyed).map Item.key) :=
  ⟨by simp [mapLookup, sIdle],
   claim_C6 ctor0 dOk 0 sIdle "a" ⟨"a", 7, 5, 0⟩ (by simp [mapLookup, sIdle])
     rfl (by decide) (by simp [sIdle])⟩

/-- C10: when the opportunistic prune pass inside `Get` on an
already-tracked key fails because some other entry's destructor errors,
`Get` returns no value together with that error — yet the requested entry's
reference counter has already been incremented and the entry has already
been removed from the eviction queue; these side effects are not rolled
back. -/
theorem claim_C10 {V E : Type} (ctor : String → Except E V)
    (destruct : V → Option E) (now : Nat) (s : PoolState V) (key : String)
    (i : Item V) (e : E) (hl : mapLookup s.m key = some i)
    (hnd : (s.pq.map Item.key).Nodup)
    (hp : (prune destruct now (pqRemove s.pq key)
      (mapSet s.m key { i with refCounter := i.refCounter + 1 })).err = some e) :
    (Get ctor destruct now s key).ret = .error (.raw e) ∧
      mapLookup ((Get ctor destruct now s key).s.m) key
        = some { i with refCounter := i.refCounter + 1 } ∧
      key ∉ ((Get ctor destruct now s key).s.pq).map Item.key := by
  obtain ⟨hik, -⟩ := mapLookup_some_key s.m key i hl
  have hkm1 : mapLookup (mapSet s.m key { i with refCounter := i.refCounter + 1 })
      key = some { i with refCounter := i.refCounter + 1 } := by
    have hself := mapSet_lookup_self s.m key
      { i with refCounter := i.refCounter + 1 } (by simpa using hik)
    rw [hl] at hself
    simpa using hself
  have hpq1ne : ∀ it ∈ pqRemove s.pq key, it.key ≠ key :=
    pqRemove_no_key s.pq key hnd
  have hlk : mapLookup ((prune destruct now (pqRemove s.pq key)
      (mapSet s.m key { i with refCounter := i.refCounter + 1 })).m) key
      = some { i with refCounter := i.refCounter + 1 } := by
    rw [prune_lookup_ne _ _ _ _ _ hpq1ne]
    exact hkm1
  have hnotinpq : key ∉ ((prune destruct now (pqRemove s.pq key)
      (mapSet s.m key { i with refCounter := i.refCounter + 1 })).pq).map
        Item.key := by
    intro hmem
    obtain ⟨x, hx, hxk⟩ := List.mem_map.1 hmem
    exact hpq1ne x (prune_pq_subset _ _ _ _ x hx) hxk
  rw [Get_hit_err ctor destruct now s key i e hl hp]
  exact ⟨rfl, hlk, hnotinpq⟩

theorem claim_C10_witness :
    mapLookup sMix.m "a" = some ⟨"a", 7, 0, 1⟩ ∧
      ((Get ctor0 dFail 5 sMix "a").ret = .error (.raw 0) ∧
        mapLookup ((Get ctor0 dFail 5 sMix "a").s.m) "a" = some ⟨"a", 7, 0, 2⟩ ∧
        "a" ∉ ((Get ctor0 dFail 5 sMix "a").s.pq).map Item.key) :=
  ⟨by simp [mapLookup, sMix],
   claim_C10 ctor0 dFail 5 sMix "a" ⟨"a", 7, 0, 1⟩ 0
     (by simp [mapLookup, sMix]) (by simp [sMix])
     (by simp [prune, pqRemove, heapPop, heapRemove, heapRemoveFix, siftDown,
       siftUp, swapIdx, mapSet, mapDelete, mapLookup, dFail, sMix, dtAt,
       minChild, List.findIdx?_cons])⟩

/-- C8 as stated is false: idempotence of `Prune` fails for pool states whose
destructor errors.  With two expired entries and an always-failing
destructor, the first `Prune` destroys one entry and aborts with its error;
the second `Prune`, at the same time value, destroys another entry and
changes the state. -/
theorem claim_C8_cex :
    (Prune dFail 5 ((Prune dFail 5 sTwo).s)).destroyed ≠ [] ∧
      (Prune dFail 5 ((Prune dFail 5 sTwo).s)).s ≠ (Prune dFail 5 sTwo).s := by
  constructor <;>
    simp [Prune, prune, heapPop, siftDown, siftUp, swapIdx, mapDelete, dFail,
      sTwo, dtAt, minChild]

/-- C8 (amended): `Prune` is idempotent on success — if a `Prune` pass
returns no error, a second `Prune` with the same time value destroys no
entries, leaves the map and heap unchanged, and returns no error.  (When the
first pass aborts on a destructor error, the second pass can destroy further
entries; see the counterexample.) -/
theorem claim_C8 {V E : Type} (destruct : V → Option E) (now : Nat)
    (s : PoolState V) (h : (Prune destruct now s).err = none) :
    (Prune destruct now ((Prune destruct now s).s)).destroyed = [] ∧
      (Prune destruct now ((Prune destruct now s).s)).s
        = (Prune destruct now s).s ∧
      (Prune destruct now ((Prune destruct now s).s)).err = none := by
  rw [Prune_def] at h
  have herr : (prune destruct now s.pq s.m).err = none :=
    Option.map_eq_none'.1 h
  have hsm : (Prune destruct now s).s.m = (prune destruct now s.pq s.m).m := rfl
  have hspq : (Prune destruct now s).s.pq = (prune destruct now s.pq s.m).pq := rfl
  rcases prune_success_exit destruct now s.pq s.m herr with hnil |
    ⟨root, rest2, hcons, hstop⟩
  · rw [Prune_def, hsm, hspq, hnil, prune_nil]
    refine ⟨rfl, ?_, rfl⟩
    show (⟨(prune destruct now s.pq s.m).m, []⟩ : PoolState V)
      = (Prune destruct now s).s
    rw [← hnil]
    rfl
  · rw [Prune_def, hsm, hspq, hcons, prune_cons_stop destruct now root rest2 _ hstop]
    refine ⟨rfl, ?_, rfl⟩
    show (⟨(prune destruct now s.pq s.m).m, root :: rest2⟩ : PoolState V)
      = (Prune destruct now s).s
    rw [← hcons]
    rfl

theorem claim_C8_witness :
    (Prune dOk 3 sHeap3).err = none ∧
      ((Prune dOk 3 ((Prune dOk 3 sHeap3).s)).destroyed = [] ∧
        (Prune dOk 3 ((Prune dOk 3 sHeap3).s)).s = (Prune dOk 3 sHeap3).s ∧
        (Prune dOk 3 ((Prune dOk 3 sHeap3).s)).err = none) :=
  ⟨by
    simp [Prune, prune, heapPop, siftDown, siftUp, swapIdx, mapDelete, dOk,
      sHeap3, dtAt, minChild],
   claim_C8 dOk 3 sHeap3
     (by
       simp [Prune, prune, heapPop, siftDown, siftUp, swapIdx, mapDelete, dOk,
         sHeap3, dtAt, minChild])⟩

/-- C3 as stated is false: a destructor error during a standalone `Prune`
pass (and likewise during the prune inside `Get`) is returned to the caller
unwrapped — it is not wrapped with the offending key's identity.  Here the
offending key is `"a"` and the returned error is `raw 0`, not
`close "a" 0`. -/
theorem claim_C3_cex :
    (Prune dFail 5 sExp).err = some (PoolErr.raw 0) ∧
      (Prune dFail 5 sExp).err ≠ some (PoolErr.close "a" 0) := by
  constructor <;>
    simp [Prune, prune, heapPop, siftDown, siftUp, swapIdx, mapDelete, dFail,
      sExp, dtAt, minChild]

/-- C3 (amended): a destructor error during `Clear` is returned wrapped with
the offending key's identity (`close key err`); a destructor error during a
`Prune` pass — standalone or triggered inside `Get` — is propagated to the
caller verbatim, unwrapped (`raw err`); indeed every error `Get` returns is
unwrapped. -/
theorem claim_C3 {V E : Type} (destruct : V → Option E) (s : PoolState V) :
    (∀ er : PoolErr E, (Clear destruct s).err = some er →
        ∃ (it : Item V) (e : E), it ∈ s.m ∧ destruct it.value = some e ∧
          er = PoolErr.close it.key e) ∧
    (∀ (now : Nat) (er : PoolErr E), (Prune destruct now s).err = some er →
        ∃ (it : Item V) (e : E), it ∈ s.pq ∧ destruct it.value = some e ∧
          er = PoolErr.raw e) ∧
    (∀ (ctor : String → Except E V) (now : Nat) (key : String)
        (er : PoolErr E), (Get ctor destruct now s key).ret = .error er →
        ∃ e : E, er = PoolErr.raw e) := by
  refine ⟨?_, ?_, ?_⟩
  · intro er h
    rw [Clear_def] at h
    exact clearLoop_err destruct s.m er h
  · intro now er h
    rw [Prune_def] at h
    cases he : (prune destruct now s.pq s.m).err with
    | none =>
      rw [he] at h
      cases h
    | some e =>
      rw [he] at h
      obtain ⟨it, hmem, hde⟩ := prune_err_mem destruct now s.pq s.m e he
      exact ⟨it, e, hmem, hde, (Option.some.inj h).symm⟩
  · intro ctor now key er h
    exact Get_ret_error_raw ctor destruct now s key er h

theorem claim_C3_witness :
    ∃ (it : Item Nat) (e : Nat), it ∈ sClr.m ∧ dFail it.value = some e ∧
      PoolErr.close "a" 0 = PoolErr.close it.key e :=
  (claim_C3 dFail sClr).1 (PoolErr.close "a" 0)
    (by simp [Clear, clearLoop, dFail, sClr, drainLoop])

/-- C2 as stated is false at the boundary: `prune` evicts on
`deadtime.Before(now)`, which is strict, so an entry whose deadline equals
`now` (deadline ≤ now holds) is not destroyed — the claim predicts it is. -/
theorem claim_C2_cex :
    (⟨"a", 7, 5, 0⟩ : Item Nat).deadtime ≤ 5 ∧
      (Prune dOk 5 sIdle).destroyed = [] ∧ (Prune dOk 5 sIdle).s = sIdle := by
  refine ⟨by decide, ?_, ?_⟩ <;>
    simp [Prune, prune, heapPop, siftDown, siftUp, swapIdx, mapDelete, dOk,
      sIdle, dtAt, minChild]

/-- C2 (amended): a prune pass samples `now` once and, over a heap-ordered
queue with a destructor that never fails, destroys exactly the entries whose
deadline is strictly before `now` (`deadline < now`, not `≤`), in ascending
deadline order, removing each from the map; it stops at the first entry
whose deadline has not passed and leaves the remaining entries — still
heap-ordered — untouched. -/
theorem claim_C2 {V E : Type} (destruct : V → Option E) (now : Nat)
    (s : PoolState V) (hh : IsHeap s.pq) (hok : ∀ v, destruct v = none) :
    (Prune destruct now s).err = none ∧
      ((Prune destruct now s).destroyed).Perm
        (s.pq.filter (fun it => it.deadtime < now)) ∧
      List.Sorted (· ≤ ·) (((Prune destruct now s).destroyed).map Item.deadtime) ∧
      ((Prune destruct now s).s.pq).Perm
        (s.pq.filter (fun it => ¬it.deadtime < now)) ∧
      IsHeap ((Prune destruct now s).s.pq) ∧
      (Prune destruct now s).s.m =
        ((Prune destruct now s).destroyed).foldl
          (fun mm it => mapDelete mm it.key) s.m := by
  obtain ⟨h1, h2, h3, h4, h5⟩ := prune_exact destruct now s.pq s.m hh hok
  rw [Prune_def]
  refine ⟨?_, h2, h4, h3, h5, prune_m destruct now s.pq s.m⟩
  rw [h1]
  rfl

theorem claim_C2_witness :
    IsHeap sHeap3.pq ∧
      ((Prune dOk 3 sHeap3).err = none ∧
        ((Prune dOk 3 sHeap3).destroyed).Perm
          (sHeap3.pq.filter (fun it => it.deadtime < 3)) ∧
        List.Sorted (· ≤ ·) (((Prune dOk 3 sHeap3).destroyed).map Item.deadtime) ∧
        ((Prune dOk 3 sHeap3).s.pq).Perm
          (sHeap3.pq.filter (fun it => ¬it.deadtime < 3)) ∧
        IsHeap ((Prune dOk 3 sHeap3).s.pq) ∧
        (Prune dOk 3 sHeap3).s.m =
          ((Prune dOk 3 sHeap3).destroyed).foldl
            (fun mm it => mapDelete mm it.key) sHeap3.m) :=
  ⟨by decide, claim_C2 dOk 3 sHeap3 (by decide) (fun v => rfl)⟩

/-- C1 as stated is false: `Release` on a tracked key whose reference
counter is already 0 is not a no-op — it decrements unconditionally.  After
`Get "a"`, `Release "a"`, `Release "a"`, the tracked entry's reference
counter is `-1`, which is negative. -/
theorem claim_C1_cex :
    mapLookup (runOps ctor0 dOk opsNeg).m "a" = some ⟨"a", 7, 1, -1⟩ ∧
      (-1 : Int) < 0 := by
  constructor
  · simp [runOps, opsNeg, step, Get, Release, prune, heapPush, siftUp,
      swapIdx, mapLookup, mapSet, initState, ctor0, dOk, dtAt]
  · decide

/-- C1 (amended): `Release` on a tracked key decrements the reference
counter unconditionally, so unbalanced releases drive it negative (see the
counterexample); what does hold, for every sequence of `Get`/`Release`
operations from the empty pool, is that every entry in the eviction
structure resolves in the map to an entry whose reference counter is ≤ 0 —
equivalently, no entry with a positive reference counter is ever present in
the eviction structure at the end of any operation sequence. -/
theorem claim_C1 {V E : Type} (ctor : String → Except E V)
    (destruct : V → Option E) (ops : List Op) (it : Item V)
    (hit : it ∈ (runOps ctor destruct ops).pq) :
    ∃ j : Item V, mapLookup ((runOps ctor destruct ops).m) it.key = some j ∧
      j.refCounter ≤ 0 :=
  (runOps_inv ctor destruct ops).pqInM it hit

theorem claim_C1_witness :
    (⟨"a", 7, 5, 0⟩ : Item Nat) ∈ (runOps ctor0 dOk opsW1).pq ∧
      ∃ j : Item Nat,
        mapLookup ((runOps ctor0 dOk opsW1).m) (⟨"a", 7, 5, 0⟩ : Item Nat).key
          = some j ∧ j.refCounter ≤ 0 :=
  ⟨by
    simp [runOps, opsW1, step, Get, Release, prune, heapPush, siftUp,
      swapIdx, mapLookup, mapSet, initState, ctor0, dOk, dtAt],
   claim_C1 ctor0 dOk opsW1 ⟨"a", 7, 5, 0⟩
     (by
       simp [runOps, opsW1, step, Get, Release, prune, heapPush, siftUp,
         swapIdx, mapLookup, mapSet, initState, ctor0, dOk, dtAt])⟩

end Pool
